import Mathlib

/-!
# CppLinq (`linq.h`): a shallow embedding of the cursor adapters and their consumers

The C++ templates are rendered as Lean definitions that are generic in the cursor
type.  A cursor kind is a type `σ` with an instance of `Cursor σ T`, mirroring the three
operations every iterator class of `linq.h` defines (`operator++`, `operator*`,
`operator==`; each `operator!=` of the header is the negation of `operator==`).

* Operations that C++ leaves undefined (reading or incrementing a past-the-end
  `std::vector` iterator) return an explicit `Fault`, so a traversal that touches the
  end position is visible in its result.
* Every `for`/`while` loop of the header is a structurally recursive function on a step
  budget.  The budget is taken from `Cursor.fuel`, an upper bound on the number of
  increments a cursor can still perform; running out of it is the separate fault
  `Fault.timeout`.
* `int` is `Int` reduced with `int_wrap` (two's complement, 32 bit) after each `++`.
* Every cursor class records whether its `operator*` returns a reference or a value
  (`Cursor.reference`): container iterators return references, `storage_iterator`,
  `select_iterator` (with a function returning a value) and `hide_type_iterator` return
  values, and the other adapters return `iterator_type<TIterator>` of their source.
-/

namespace vczh

/-! ## Results of running a piece of the header -/

/-- The ways in which running a piece of `linq.h` can fail to produce a value. -/
inductive Fault where
  /-- `operator*` applied to a past-the-end container iterator (undefined in C++). -/
  | dereference_past_end
  /-- `operator++` applied to a past-the-end container iterator (undefined in C++). -/
  | increment_past_end
  /-- The step budget of a loop ran out. -/
  | timeout
  /-- A thrown `linq_exception`, with its message. -/
  | linq_exception (message : String)
  /-- An `int` division whose divisor is zero (undefined in C++). -/
  | division_by_zero
  /-- A read through a returned reference to a temporary that no longer exists (undefined in
  C++). -/
  | dangling_reference
  deriving DecidableEq, Repr

/-- The result type of every embedded operation. -/
abbrev Run (α : Type) : Type := Except Fault α

deriving instance DecidableEq for Except

/-- Two's complement reduction of a mathematical integer to a 32 bit `int`. -/
def int_wrap (x : Int) : Int := (x + 2 ^ 31) % 2 ^ 32 - 2 ^ 31

/-! ## The cursor protocol -/

/-- The operations shared by all iterator classes of `linq.h`. -/
class Cursor (σ : Type) (T : outParam Type) where
  /-- The cursor after `operator++`. -/
  next : σ → Run σ
  /-- The value of `operator*`. -/
  deref : σ → Run T
  /-- The value of `operator==`. -/
  equals : σ → σ → Bool
  /-- An upper bound on the number of increments still possible, used as loop budget. -/
  fuel : σ → Nat
  /-- Whether `operator*` returns a reference to the element, that is whether
  `iterator_type<TIterator>` is a reference type, rather than a value. -/
  reference : Bool

/-- Whether `iterator_type<TIterator>` is a reference type for the cursor class `σ`. -/
def yields_reference (σ : Type) {T : Type} [inst : Cursor σ T] : Bool :=
  inst.reference

/-! ## Container iterators -/

/-- A `std::vector<T>::iterator`: the contents of the vector and an index into it;
the index `data.length` is the past-the-end position. -/
structure vector_iterator (T : Type) where
  data : List T
  pos : Nat

/-- Increment of a vector iterator. -/
def vector_iterator.next {T : Type} (it : vector_iterator T) : Run (vector_iterator T) :=
  if it.pos < it.data.length then .ok { it with pos := it.pos + 1 }
  else .error .increment_past_end

/-- Dereference of a vector iterator. -/
def vector_iterator.deref {T : Type} (it : vector_iterator T) : Run T :=
  match it.data[it.pos]? with
  | some x => .ok x
  | none => .error .dereference_past_end

/-- Iterators into one vector are equal when they point at the same index. -/
def vector_iterator.equals {T : Type} (a b : vector_iterator T) : Bool :=
  a.pos == b.pos

instance {T : Type} : Cursor (vector_iterator T) T where
  next := vector_iterator.next
  deref := vector_iterator.deref
  equals := vector_iterator.equals
  fuel := fun it => it.data.length - it.pos
  reference := true

/-- The value of `std::begin(container)`. -/
def vector_begin {T : Type} (xs : List T) : vector_iterator T := ⟨xs, 0⟩

/-- The value of `std::end(container)`. -/
def vector_end {T : Type} (xs : List T) : vector_iterator T := ⟨xs, xs.length⟩

/-! ## `storage_iterator` -/

/-- The class `storage_iterator<T>`: the shared vector and an iterator into it. -/
structure storage_iterator (T : Type) where
  values : List T
  iterator : vector_iterator T

instance {T : Type} : Cursor (storage_iterator T) T where
  next := fun s => do
    let it ← Cursor.next s.iterator
    pure { s with iterator := it }
  deref := fun s => Cursor.deref s.iterator
  equals := fun a b => Cursor.equals a.iterator b.iterator
  fuel := fun s => Cursor.fuel s.iterator
  reference := false

/-! ## `select_iterator` -/

/-- The class `select_iterator<TIterator, TFunction>`. -/
structure select_iterator (σ : Type) (T U : Type) where
  iterator : σ
  f : T → U

instance {σ T U : Type} [Cursor σ T] : Cursor (select_iterator σ T U) U where
  next := fun s => do
    let it ← Cursor.next s.iterator
    pure { s with iterator := it }
  deref := fun s => do
    let x ← Cursor.deref s.iterator
    pure (s.f x)
  equals := fun a b => Cursor.equals a.iterator b.iterator
  fuel := fun s => Cursor.fuel s.iterator
  reference := false

/-! ## `where_iterator` -/

/-- The class `where_iterator<TIterator, TFunction>`. -/
structure where_iterator (σ : Type) (T : Type) where
  iterator : σ
  end_ : σ
  f : T → Bool

/-- The loop `while (iterator != end && !f(*iterator)) iterator++;` of `move_iterator`. -/
def where_iterator.move_loop {σ T : Type} [Cursor σ T] (end_ : σ) (f : T → Bool) :
    Nat → σ → Run σ
  | 0, _ => .error .timeout
  | n + 1, it =>
    if Cursor.equals it end_ then .ok it
    else do
      let x ← Cursor.deref it
      if f x then .ok it
      else do
        let it ← Cursor.next it
        where_iterator.move_loop end_ f n it

/-- The member `move_iterator(bool next)`. -/
def where_iterator.move_iterator {σ T : Type} [Cursor σ T] (w : where_iterator σ T)
    (next : Bool) : Run (where_iterator σ T) :=
  if Cursor.equals w.iterator w.end_ then .ok w
  else do
    let it ← if next then Cursor.next w.iterator else pure w.iterator
    let it ← where_iterator.move_loop w.end_ w.f (Cursor.fuel it + 1) it
    pure { w with iterator := it }

/-- The constructor `where_iterator(_iterator, _end, _f)`. -/
def where_iterator.create {σ T : Type} [Cursor σ T] (iterator end_ : σ) (f : T → Bool) :
    Run (where_iterator σ T) :=
  where_iterator.move_iterator ⟨iterator, end_, f⟩ false

instance {σ T : Type} [Cursor σ T] : Cursor (where_iterator σ T) T where
  next := fun w => w.move_iterator true
  deref := fun w => Cursor.deref w.iterator
  equals := fun a b => Cursor.equals a.iterator b.iterator
  fuel := fun w => Cursor.fuel w.iterator
  reference := yields_reference σ

/-! ## `skip_iterator` -/

/-- The class `skip_iterator<TIterator>`. -/
structure skip_iterator (σ : Type) where
  iterator : σ
  end_ : σ

/-- The loop `for (int i = 0; i < _count && iterator != end; i++, iterator++);`. -/
def skip_iterator.skip_loop {σ T : Type} [Cursor σ T] (end_ : σ) (count : Int) :
    Nat → Int → σ → Run σ
  | 0, _, _ => .error .timeout
  | n + 1, i, it =>
    if i < count && !Cursor.equals it end_ then do
      let it ← Cursor.next it
      skip_iterator.skip_loop end_ count n (int_wrap (i + 1)) it
    else .ok it

/-- The constructor `skip_iterator(_iterator, _end, _count)`. -/
def skip_iterator.create {σ T : Type} [Cursor σ T] (iterator end_ : σ) (count : Int) :
    Run (skip_iterator σ) := do
  let it ← skip_iterator.skip_loop end_ count (Cursor.fuel iterator + 1) 0 iterator
  pure ⟨it, end_⟩

instance {σ T : Type} [Cursor σ T] : Cursor (skip_iterator σ) T where
  next := fun s => do
    let it ← Cursor.next s.iterator
    pure { s with iterator := it }
  deref := fun s => Cursor.deref s.iterator
  equals := fun a b => Cursor.equals a.iterator b.iterator
  fuel := fun s => Cursor.fuel s.iterator
  reference := yields_reference σ

/-! ## `skip_while_iterator` -/

/-- The class `skip_while_iterator<TIterator, TFunction>`. -/
structure skip_while_iterator (σ : Type) (T : Type) where
  iterator : σ
  end_ : σ
  f : T → Bool

/-- The loop `while (iterator != end && f(*iterator)) iterator++;` of the constructor. -/
def skip_while_iterator.skip_loop {σ T : Type} [Cursor σ T] (end_ : σ) (f : T → Bool) :
    Nat → σ → Run σ
  | 0, _ => .error .timeout
  | n + 1, it =>
    if Cursor.equals it end_ then .ok it
    else do
      let x ← Cursor.deref it
      if f x then do
        let it ← Cursor.next it
        skip_while_iterator.skip_loop end_ f n it
      else .ok it

/-- The constructor `skip_while_iterator(_iterator, _end, _f)`. -/
def skip_while_iterator.create {σ T : Type} [Cursor σ T] (iterator end_ : σ)
    (f : T → Bool) : Run (skip_while_iterator σ T) := do
  let it ← skip_while_iterator.skip_loop end_ f (Cursor.fuel iterator + 1) iterator
  pure ⟨it, end_, f⟩

instance {σ T : Type} [Cursor σ T] : Cursor (skip_while_iterator σ T) T where
  next := fun s => do
    let it ← Cursor.next s.iterator
    pure { s with iterator := it }
  deref := fun s => Cursor.deref s.iterator
  equals := fun a b => Cursor.equals a.iterator b.iterator
  fuel := fun s => Cursor.fuel s.iterator
  reference := yields_reference σ

/-! ## `take_iterator` -/

/-- The class `take_iterator<TIterator>`. -/
structure take_iterator (σ : Type) where
  iterator : σ
  end_ : σ
  count : Int
  current : Int

/-- The constructor `take_iterator(_iterator, _end, _count)`. -/
def take_iterator.create {σ : Type} (iterator end_ : σ) (count : Int) : take_iterator σ :=
  if (0 : Int) = count then ⟨end_, end_, count, 0⟩ else ⟨iterator, end_, count, 0⟩

/-- The member `operator++` of `take_iterator`. -/
def take_iterator.next {σ T : Type} [Cursor σ T] (t : take_iterator σ) :
    Run (take_iterator σ) :=
  let current := int_wrap (t.current + 1)
  if current = t.count then .ok { t with iterator := t.end_, current := current }
  else do
    let it ← Cursor.next t.iterator
    pure { t with iterator := it, current := current }

instance {σ T : Type} [Cursor σ T] : Cursor (take_iterator σ) T where
  next := take_iterator.next
  deref := fun t => Cursor.deref t.iterator
  equals := fun a b => Cursor.equals a.iterator b.iterator
  fuel := fun t => Cursor.fuel t.iterator
  reference := yields_reference σ

/-! ## `take_while_iterator` -/

/-- The class `take_while_iterator<TIterator, TFunction>`. -/
structure take_while_iterator (σ : Type) (T : Type) where
  iterator : σ
  end_ : σ
  f : T → Bool

/-- The constructor `take_while_iterator(_iterator, _end, _f)`:
`if (iterator != end && !f(*iterator)) iterator = end;`. -/
def take_while_iterator.create {σ T : Type} [Cursor σ T] (iterator end_ : σ)
    (f : T → Bool) : Run (take_while_iterator σ T) :=
  if Cursor.equals iterator end_ then .ok ⟨iterator, end_, f⟩
  else do
    let x ← Cursor.deref iterator
    if f x then pure ⟨iterator, end_, f⟩ else pure ⟨end_, end_, f⟩

/-- The member `operator++` of `take_while_iterator`:
`if (!f(*++iterator)) iterator = end;`. -/
def take_while_iterator.next {σ T : Type} [Cursor σ T] (t : take_while_iterator σ T) :
    Run (take_while_iterator σ T) := do
  let it ← Cursor.next t.iterator
  let x ← Cursor.deref it
  if t.f x then pure { t with iterator := it } else pure { t with iterator := t.end_ }

instance {σ T : Type} [Cursor σ T] : Cursor (take_while_iterator σ T) T where
  next := take_while_iterator.next
  deref := fun t => Cursor.deref t.iterator
  equals := fun a b => Cursor.equals a.iterator b.iterator
  fuel := fun t => Cursor.fuel t.iterator
  reference := yields_reference σ

/-! ## `concat_iterator` -/

/-- The class `concat_iterator<TIterator1, TIterator2>`. -/
structure concat_iterator (σ₁ σ₂ : Type) where
  current1 : σ₁
  end1 : σ₁
  current2 : σ₂
  end2 : σ₂
  first : Bool

/-- The constructor of `concat_iterator`: `first(_current1 != _end1)`. -/
def concat_iterator.create {σ₁ σ₂ T : Type} [Cursor σ₁ T] [Cursor σ₂ T]
    (current1 end1 : σ₁) (current2 end2 : σ₂) : concat_iterator σ₁ σ₂ :=
  ⟨current1, end1, current2, end2, !Cursor.equals current1 end1⟩

/-- The member `operator++` of `concat_iterator`. -/
def concat_iterator.next {σ₁ σ₂ T : Type} [Cursor σ₁ T] [Cursor σ₂ T]
    (c : concat_iterator σ₁ σ₂) : Run (concat_iterator σ₁ σ₂) :=
  if c.first then do
    let it ← Cursor.next c.current1
    if Cursor.equals it c.end1 then pure { c with current1 := it, first := false }
    else pure { c with current1 := it }
  else do
    let it ← Cursor.next c.current2
    pure { c with current2 := it }

/-- The member `operator*` of `concat_iterator`, declared with the return type
`iterator_type<TIterator1>`: `return first ? *current1 : *current2;`.  When `*current1` is a
reference and `*current2` is a value, the conditional expression is a temporary value and
the function returns a reference to it, which dangles once the function has returned. -/
def concat_iterator.deref {σ₁ σ₂ T : Type} [Cursor σ₁ T] [Cursor σ₂ T]
    (c : concat_iterator σ₁ σ₂) : Run T := do
  let x ← if c.first then Cursor.deref c.current1 else Cursor.deref c.current2
  if yields_reference σ₁ && !yields_reference σ₂ then .error .dangling_reference
  else pure x

/-- The member `operator==` of `concat_iterator`. -/
def concat_iterator.equals {σ₁ σ₂ T : Type} [Cursor σ₁ T] [Cursor σ₂ T]
    (c it : concat_iterator σ₁ σ₂) : Bool :=
  if c.first != it.first then false
  else if c.first then Cursor.equals c.current1 it.current1
  else Cursor.equals c.current2 it.current2

instance {σ₁ σ₂ T : Type} [Cursor σ₁ T] [Cursor σ₂ T] : Cursor (concat_iterator σ₁ σ₂) T where
  next := concat_iterator.next
  deref := concat_iterator.deref
  equals := concat_iterator.equals
  fuel := fun c => Cursor.fuel c.current1 + Cursor.fuel c.current2
  reference := yields_reference σ₁

/-! ## `hide_type_iterator`

C++ decides at run time whether two boxed iterators have the same class
(`std::dynamic_pointer_cast`).  The classes that a program boxes are described by a table:
`K` indexes them and `El k` is the class with index `k`; the index `none` is reserved for
`storage_iterator<T>`, which `from_values` always boxes. -/

section erasure

variable {K : Type} [DecidableEq K]

/-- The class of the boxed iterator with run-time type index `k`. -/
def boxed_iterator (El : K → Type) (T : Type) : Option K → Type
  | none => storage_iterator T
  | some k => El k

instance boxed_cursor (El : K → Type) (T : Type) [∀ k, Cursor (El k) T] :
    (k : Option K) → Cursor (boxed_iterator El T k) T
  | none => inferInstanceAs (Cursor (storage_iterator T) T)
  | some k => inferInstanceAs (Cursor (El k) T)

/-- An object of class `iterator_implement<TIterator>` seen through `iterator_interface`:
its run-time type index and the member `iterator`. -/
structure iterator_implement (El : K → Type) (T : Type) where
  kind : Option K
  iterator : boxed_iterator El T kind

variable {El : K → Type} {T : Type} [∀ k, Cursor (El k) T]

/-- The member `next()`: `TIterator t = iterator; t++; return std::make_shared<TSelf>(t);`. -/
def iterator_implement.next (i : iterator_implement El T) : Run (iterator_implement El T) := do
  let t ← Cursor.next i.iterator
  pure ⟨i.kind, t⟩

/-- The member `deref()`. -/
def iterator_implement.deref (i : iterator_implement El T) : Run T :=
  Cursor.deref i.iterator

/-- The cast `std::dynamic_pointer_cast<TSelf>(it)` to the class with index `k`. -/
def iterator_implement.dynamic_pointer_cast (k : Option K) (it : iterator_implement El T) :
    Option (boxed_iterator El T k) :=
  if h : it.kind = k then some (h ▸ it.iterator) else none

/-- The member `equals(it)`: `impl && (iterator == impl->iterator)`. -/
def iterator_implement.equals (i it : iterator_implement El T) : Bool :=
  match iterator_implement.dynamic_pointer_cast i.kind it with
  | some impl => Cursor.equals i.iterator impl
  | none => false

/-- The class `hide_type_iterator<T>`: a pointer to an `iterator_interface`. -/
structure hide_type_iterator (El : K → Type) (T : Type) where
  iterator : iterator_implement El T

/-- The constructor template `hide_type_iterator(const TIterator& _iterator)`. -/
def hide_type_iterator.create (El : K → Type) (T : Type) (k : Option K)
    (iterator : boxed_iterator El T k) : hide_type_iterator El T :=
  ⟨⟨k, iterator⟩⟩

instance : Cursor (hide_type_iterator El T) T where
  next := fun h => do
    let i ← h.iterator.next
    pure ⟨i⟩
  deref := fun h => h.iterator.deref
  equals := fun a b => a.iterator.equals b.iterator
  fuel := fun h => Cursor.fuel h.iterator.iterator
  reference := false

/-- The member `operator!=` of `hide_type_iterator`: `!(iterator->equals(it.iterator))`. -/
def hide_type_iterator.not_equals (a it : hide_type_iterator El T) : Bool :=
  !(a.iterator.equals it.iterator)

end erasure

/-! ## `linq_enumerable` -/

/-- The class `linq_enumerable<TIterator>`: a pair of cursors of one kind. -/
structure linq_enumerable (σ : Type) where
  _begin : σ
  _end : σ

/-- The function `from(container)`. -/
def from_ {T : Type} (container : List T) : linq_enumerable (vector_iterator T) :=
  ⟨vector_begin container, vector_end container⟩

namespace linq_enumerable

variable {σ T : Type} [Cursor σ T]

/-- The member `select(f)`. -/
def select {U : Type} (e : linq_enumerable σ) (f : T → U) :
    linq_enumerable (select_iterator σ T U) :=
  ⟨⟨e._begin, f⟩, ⟨e._end, f⟩⟩

/-- The member `where(f)`. -/
def where_ (e : linq_enumerable σ) (f : T → Bool) :
    Run (linq_enumerable (where_iterator σ T)) := do
  let b ← where_iterator.create e._begin e._end f
  let en ← where_iterator.create e._end e._end f
  pure ⟨b, en⟩

/-- The member `skip(count)`. -/
def skip (e : linq_enumerable σ) (count : Int) : Run (linq_enumerable (skip_iterator σ)) := do
  let b ← skip_iterator.create e._begin e._end count
  let en ← skip_iterator.create e._end e._end count
  pure ⟨b, en⟩

/-- The member `skip_while(f)`. -/
def skip_while (e : linq_enumerable σ) (f : T → Bool) :
    Run (linq_enumerable (skip_while_iterator σ T)) := do
  let b ← skip_while_iterator.create e._begin e._end f
  let en ← skip_while_iterator.create e._end e._end f
  pure ⟨b, en⟩

/-- The member `take(count)`. -/
def take (e : linq_enumerable σ) (count : Int) : linq_enumerable (take_iterator σ) :=
  ⟨take_iterator.create e._begin e._end count, take_iterator.create e._end e._end count⟩

/-- The member `take_while(f)`. -/
def take_while (e : linq_enumerable σ) (f : T → Bool) :
    Run (linq_enumerable (take_while_iterator σ T)) := do
  let b ← take_while_iterator.create e._begin e._end f
  let en ← take_while_iterator.create e._end e._end f
  pure ⟨b, en⟩

/-- The member `concat(e)`. -/
def concat {σ₂ : Type} [Cursor σ₂ T] (e : linq_enumerable σ) (e2 : linq_enumerable σ₂) :
    linq_enumerable (concat_iterator σ σ₂) :=
  ⟨concat_iterator.create e._begin e._end e2._begin e2._end,
   concat_iterator.create e._end e._end e2._end e2._end⟩

/-- The loop `for (auto it = _begin; it != _end; it++) container.push_back(*it);`. -/
def to_vector_loop (end_ : σ) : Nat → σ → List T → Run (List T)
  | 0, _, _ => .error .timeout
  | n + 1, it, container =>
    if Cursor.equals it end_ then .ok container
    else do
      let x ← Cursor.deref it
      let it ← Cursor.next it
      to_vector_loop end_ n it (container ++ [x])

/-- The member `to_vector()`. -/
def to_vector (e : linq_enumerable σ) : Run (List T) :=
  to_vector_loop e._end (Cursor.fuel e._begin + 1) e._begin []

/-- The loop of `count()`: `for (auto it = _begin; it != _end; it++) counter++;`. -/
def count_loop (end_ : σ) : Nat → σ → Int → Run Int
  | 0, _, _ => .error .timeout
  | n + 1, it, counter =>
    if Cursor.equals it end_ then .ok counter
    else do
      let it ← Cursor.next it
      count_loop end_ n it (int_wrap (counter + 1))

/-- The member `count()`. -/
def count (e : linq_enumerable σ) : Run Int :=
  count_loop e._end (Cursor.fuel e._begin + 1) e._begin 0

/-- The member `empty()`. -/
def empty (e : linq_enumerable σ) : Bool :=
  Cursor.equals e._begin e._end

end linq_enumerable

/-! ## `linq<T>` and the eager set operators -/

section linq

variable {K : Type} [DecidableEq K]

/-- The class `linq<T>`: an enumerable over the erased cursor. -/
abbrev linq (El : K → Type) (T : Type) : Type := linq_enumerable (hide_type_iterator El T)

/-- The converting constructor `linq(const linq_enumerable<TIterator>& e)`. -/
def linq.create (El : K → Type) (T : Type) (k : Option K)
    (e : linq_enumerable (boxed_iterator El T k)) : linq El T :=
  ⟨hide_type_iterator.create El T k e._begin, hide_type_iterator.create El T k e._end⟩

/-- The function `from_values(std::shared_ptr<std::vector<TElement>> xs)`. -/
def from_values (El : K → Type) {T : Type} (xs : List T) : linq El T :=
  linq.create El T none
    ⟨(⟨xs, vector_begin xs⟩ : storage_iterator T), (⟨xs, vector_end xs⟩ : storage_iterator T)⟩

/-- The call `set.insert(x)` on a `std::set<T>`, the set being the increasing list of its
keys: the set afterwards and the member `.second` of the returned pair. -/
def set_insert {T : Type} [LinearOrder T] (x : T) : List T → List T × Bool
  | [] => ([x], true)
  | y :: ys =>
    if x < y then (x :: y :: ys, true)
    else if y < x then
      let r := set_insert x ys
      (y :: r.1, r.2)
    else (y :: ys, false)

variable {σ T : Type} [Cursor σ T] [LinearOrder T]

/-- The range insertion behind `std::set<TElement> set(e.begin(), e.end())`. -/
def set_of_range (end_ : σ) : Nat → σ → List T → Run (List T)
  | 0, _, _ => .error .timeout
  | n + 1, it, set =>
    if Cursor.equals it end_ then .ok set
    else do
      let x ← Cursor.deref it
      let it ← Cursor.next it
      set_of_range end_ n it (set_insert x set).1

/-- The loop shared by `distinct` and `except_with`:
`for (auto it = _begin; it != _end; it++) if (set.insert(*it).second) xs->push_back(*it);`. -/
def push_new_loop (end_ : σ) : Nat → σ → List T → List T → Run (List T)
  | 0, _, _, _ => .error .timeout
  | n + 1, it, set, xs =>
    if Cursor.equals it end_ then .ok xs
    else do
      let x ← Cursor.deref it
      let r := set_insert x set
      let xs ← if r.2 then (do let y ← Cursor.deref it; pure (xs ++ [y])) else pure xs
      let it ← Cursor.next it
      push_new_loop end_ n it r.1 xs

/-- The member `distinct()`. -/
def linq_enumerable.distinct (El : K → Type) (e : linq_enumerable σ) : Run (linq El T) := do
  let xs ← push_new_loop e._end (Cursor.fuel e._begin + 1) e._begin [] []
  pure (from_values El xs)

/-- The member `except_with(e)`. -/
def linq_enumerable.except_with {σ₂ : Type} [Cursor σ₂ T] (El : K → Type)
    (e : linq_enumerable σ) (e2 : linq_enumerable σ₂) : Run (linq El T) := do
  let set ← set_of_range e2._end (Cursor.fuel e2._begin + 1) e2._begin []
  let xs ← push_new_loop e._end (Cursor.fuel e._begin + 1) e._begin set []
  pure (from_values El xs)

end linq

/-- Reference function for the set operators: the elements of a list that are neither in
`seen` nor earlier in the list, in their order of first occurrence. -/
def keep_new {T : Type} [DecidableEq T] (seen : List T) : List T → List T
  | [] => []
  | x :: xs => if x ∈ seen then keep_new seen xs else x :: keep_new (x :: seen) xs

/-- The table of boxed classes of a program that boxes `storage_iterator` only. -/
abbrev no_kinds (T : Type) : Empty → Type := fun _ => vector_iterator T

/-! ## Element access, comparison and aggregation -/

/-- The exception thrown on access to an empty collection. -/
def empty_collection : Fault :=
  Fault.linq_exception ("Failed to get a value from an empty collection.")

/-- The exception thrown by `single` and `single_or_default` on more than one element. -/
def not_exactly_one : Fault :=
  Fault.linq_exception ("The collection should have exactly one value.")

/-- The exception thrown by `element_at`. -/
def index_out_of_range : Fault :=
  Fault.linq_exception ("Argument out of range: index.")

section terminal

variable {K : Type} [DecidableEq K] {σ T : Type} [Cursor σ T]

/-- The function `from_value(value)`: a vector holding `value`, passed to `from_values`. -/
def from_value (El : K → Type) (value : T) : linq El T :=
  from_values El ([] ++ [value])

/-- The loop of `intersect_with`: `for (auto it = _begin; it != _end; it++)
if (seti.insert(*it).second && !set.insert(*it).second) xs->push_back(*it);`. -/
def intersect_loop [LinearOrder T] (end_ : σ) :
    Nat → σ → List T → List T → List T → Run (List T)
  | 0, _, _, _, _ => .error .timeout
  | n + 1, it, seti, set, xs =>
    if Cursor.equals it end_ then .ok xs
    else do
      let x ← Cursor.deref it
      let ri := set_insert x seti
      if ri.2 then do
        let y ← Cursor.deref it
        let r := set_insert y set
        let xs ← if !r.2 then (do let z ← Cursor.deref it; pure (xs ++ [z])) else pure xs
        let it ← Cursor.next it
        intersect_loop end_ n it ri.1 r.1 xs
      else do
        let it ← Cursor.next it
        intersect_loop end_ n it ri.1 set xs

/-- The member `intersect_with(e)`. -/
def linq_enumerable.intersect_with [LinearOrder T] {σ₂ : Type} [Cursor σ₂ T] (El : K → Type)
    (e : linq_enumerable σ) (e2 : linq_enumerable σ₂) : Run (linq El T) := do
  let set ← set_of_range e2._end (Cursor.fuel e2._begin + 1) e2._begin []
  let xs ← intersect_loop e._end (Cursor.fuel e._begin + 1) e._begin [] set []
  pure (from_values El xs)

/-- The loop of `sequence_equal`:
`while (x != xe && y != ye) { if (*x++ != *y++) return false; } return x == xe && y == ye;`. -/
def sequence_equal_loop [DecidableEq T] {σ₂ : Type} [Cursor σ₂ T] (xe : σ) (ye : σ₂) :
    Nat → σ → σ₂ → Run Bool
  | 0, _, _ => .error .timeout
  | n + 1, x, y =>
    if !Cursor.equals x xe && !Cursor.equals y ye then do
      let x1 ← Cursor.next x
      let a ← Cursor.deref x
      let y1 ← Cursor.next y
      let b ← Cursor.deref y
      if a ≠ b then .ok false
      else sequence_equal_loop xe ye n x1 y1
    else .ok (Cursor.equals x xe && Cursor.equals y ye)

/-- The member `sequence_equal(e)`. -/
def linq_enumerable.sequence_equal [DecidableEq T] {σ₂ : Type} [Cursor σ₂ T]
    (e : linq_enumerable σ) (e2 : linq_enumerable σ₂) : Run Bool :=
  sequence_equal_loop e._end e2._end (Cursor.fuel e._begin + 1) e._begin e2._begin

/-- The loop of `element_at`: `for (auto it = _begin; it != _end; it++)
{ if (counter == index) return *it; counter++; }`; `none` when the loop runs to its end. -/
def element_at_loop (end_ : σ) (index : Int) : Nat → σ → Int → Run (Option T)
  | 0, _, _ => .error .timeout
  | n + 1, it, counter =>
    if Cursor.equals it end_ then .ok none
    else if counter = index then do
      let x ← Cursor.deref it
      pure (some x)
    else do
      let it ← Cursor.next it
      element_at_loop end_ index n it (int_wrap (counter + 1))

/-- The member `element_at(index)`. -/
def linq_enumerable.element_at (e : linq_enumerable σ) (index : Int) : Run T :=
  if index ≥ 0 then do
    let r ← element_at_loop e._end index (Cursor.fuel e._begin + 1) e._begin 0
    match r with
    | some x => pure x
    | none => .error index_out_of_range
  else .error index_out_of_range

/-- The member `first()`. -/
def linq_enumerable.first (e : linq_enumerable σ) : Run T :=
  if e.empty then .error empty_collection else Cursor.deref e._begin

/-- The member `first_or_default(value)`. -/
def linq_enumerable.first_or_default (e : linq_enumerable σ) (value : T) : Run T :=
  if e.empty then .ok value else Cursor.deref e._begin

/-- The loop `while (++it != _end) result = *it;` of `last()`. -/
def last_loop (end_ : σ) : Nat → σ → T → Run T
  | 0, _, _ => .error .timeout
  | n + 1, it, result => do
    let it ← Cursor.next it
    if Cursor.equals it end_ then .ok result
    else do
      let x ← Cursor.deref it
      last_loop end_ n it x

/-- The member `last()`. -/
def linq_enumerable.last (e : linq_enumerable σ) : Run T :=
  if e.empty then .error empty_collection
  else do
    let result ← Cursor.deref e._begin
    last_loop e._end (Cursor.fuel e._begin + 1) e._begin result

/-- The loop `for (auto it = _begin; it != _end; it++) result = *it;` of
`last_or_default`. -/
def last_or_default_loop (end_ : σ) : Nat → σ → T → Run T
  | 0, _, _ => .error .timeout
  | n + 1, it, result =>
    if Cursor.equals it end_ then .ok result
    else do
      let x ← Cursor.deref it
      let it ← Cursor.next it
      last_or_default_loop end_ n it x

/-- The member `last_or_default(value)`. -/
def linq_enumerable.last_or_default (e : linq_enumerable σ) (value : T) : Run T :=
  last_or_default_loop e._end (Cursor.fuel e._begin + 1) e._begin value

/-- The member `single()`. -/
def linq_enumerable.single (e : linq_enumerable σ) : Run (linq_enumerable σ) :=
  if Cursor.equals e._begin e._end then .error empty_collection
  else do
    let it ← Cursor.next e._begin
    if !Cursor.equals it e._end then .error not_exactly_one
    else pure e

/-- The member `single_or_default(value)` of an enumerable whose cursor class has the
run-time type index `k`; the result `*this` is converted to `linq<TElement>`. -/
def linq_enumerable.single_or_default (El : K → Type) [∀ k, Cursor (El k) T] (k : Option K)
    (e : linq_enumerable (boxed_iterator El T k)) (value : T) : Run (linq El T) :=
  if Cursor.equals e._begin e._end then pure (from_value El value)
  else do
    let it ← Cursor.next e._begin
    if !Cursor.equals it e._end then .error not_exactly_one
    else pure (linq.create El T k e)

/-- The loop `while (++it != _end) result = f(result, *it);` of `aggregate(f)`. -/
def aggregate_loop (end_ : σ) (f : T → T → T) : Nat → σ → T → Run T
  | 0, _, _ => .error .timeout
  | n + 1, it, result => do
    let it ← Cursor.next it
    if Cursor.equals it end_ then .ok result
    else do
      let x ← Cursor.deref it
      aggregate_loop end_ f n it (f result x)

/-- The member `aggregate(f)`. -/
def linq_enumerable.aggregate (e : linq_enumerable σ) (f : T → T → T) : Run T :=
  if Cursor.equals e._begin e._end then .error empty_collection
  else do
    let result ← Cursor.deref e._begin
    aggregate_loop e._end f (Cursor.fuel e._begin + 1) e._begin result

/-- The loop `for (auto it = _begin; it != _end; it++) result = f(result, *it);` of
`aggregate(init, f)`. -/
def aggregate_init_loop {R : Type} (end_ : σ) (f : R → T → R) : Nat → σ → R → Run R
  | 0, _, _ => .error .timeout
  | n + 1, it, result =>
    if Cursor.equals it end_ then .ok result
    else do
      let x ← Cursor.deref it
      let it ← Cursor.next it
      aggregate_init_loop end_ f n it (f result x)

/-- The member `aggregate(init, f)`. -/
def linq_enumerable.aggregate_init {R : Type} (e : linq_enumerable σ) (init : R)
    (f : R → T → R) : Run R :=
  aggregate_init_loop e._end f (Cursor.fuel e._begin + 1) e._begin init

/-- The member `all(f)`: `select(f).aggregate(true, [](bool a, bool b){return a&&b; })`. -/
def linq_enumerable.all (e : linq_enumerable σ) (f : T → Bool) : Run Bool :=
  (e.select f).aggregate_init true (fun a b => a && b)

/-- The member `any(f)`: `!where(f).empty()`. -/
def linq_enumerable.any (e : linq_enumerable σ) (f : T → Bool) : Run Bool := do
  let w ← e.where_ f
  pure (!w.empty)

/-- The member `max()`: `aggregate` with `a > b ? a : b`. -/
def linq_enumerable.max [LinearOrder T] (e : linq_enumerable σ) : Run T :=
  e.aggregate (fun a b => if a > b then a else b)

/-- The member `min()`: `aggregate` with `a < b ? a : b`. -/
def linq_enumerable.min [LinearOrder T] (e : linq_enumerable σ) : Run T :=
  e.aggregate (fun a b => if a < b then a else b)

end terminal

/-- The quotient `a / b` of two `int` values: truncated toward zero. -/
def int_div (a b : Int) : Run Int :=
  if b = 0 then .error .division_by_zero else .ok (int_wrap (Int.tdiv a b))

/-- The loop of `average`, for `int` elements and `TResult = int`:
`for (auto it = _begin; it != _end; it++) { sum += (TResult)*it; counter++; }`. -/
def average_loop {σ : Type} [Cursor σ Int] (end_ : σ) : Nat → σ → Int → Int → Run (Int × Int)
  | 0, _, _, _ => .error .timeout
  | n + 1, it, sum, counter =>
    if Cursor.equals it end_ then .ok (sum, counter)
    else do
      let x ← Cursor.deref it
      let it ← Cursor.next it
      average_loop end_ n it (int_wrap (sum + x)) (int_wrap (counter + 1))

/-- The member `average<TResult>()` for `int` elements and `TResult = int`. -/
def linq_enumerable.average {σ : Type} [Cursor σ Int] (e : linq_enumerable σ) : Run Int :=
  if Cursor.equals e._begin e._end then .error empty_collection
  else do
    let r ← average_loop e._end (Cursor.fuel e._begin + 1) e._begin 0 0
    int_div r.1 r.2

/-- The member `sum()` for `int` elements:
`aggregate(0, [](const TElement& a, const TElement& b){return a + b; })`. -/
def linq_enumerable.sum {σ : Type} [Cursor σ Int] (e : linq_enumerable σ) : Run Int :=
  e.aggregate_init 0 (fun a b => int_wrap (a + b))

/-- The member `product()` for `int` elements:
`aggregate([](const TElement& a, const TElement& b){return a * b; })`. -/
def linq_enumerable.product {σ : Type} [Cursor σ Int] (e : linq_enumerable σ) : Run Int :=
  e.aggregate (fun a b => int_wrap (a * b))

/-- The cursor after `n` applications of `operator++`. -/
def advance {σ T : Type} [Cursor σ T] : Nat → σ → Run σ
  | 0, c => .ok c
  | n + 1, c => do
    let c ← Cursor.next c
    advance n c

/-- The table of boxed classes of a program that boxes container iterators besides
`storage_iterator`. -/
abbrev vector_kinds (T : Type) : Unit → Type := fun _ => vector_iterator T

/-- The enumerable `from(container)` as an enumerable whose cursor class is listed in
`vector_kinds`, so that it can be converted to `linq<T>`. -/
def from_boxable {T : Type} (container : List T) :
    linq_enumerable (boxed_iterator (vector_kinds T) T (some ())) :=
  from_ container

/-! ## Finite sequences -/

/-- The cursor `c` produces exactly the elements `xs`, one per increment, before it
compares equal to `end_`; every position on the way is inside the cursor's step budget. -/
def Reaches {σ T : Type} [Cursor σ T] (end_ : σ) : σ → List T → Prop
  | c, [] => Cursor.equals c end_ = true
  | c, x :: xs =>
    Cursor.equals c end_ = false ∧ Cursor.deref c = .ok x ∧ xs.length < Cursor.fuel c ∧
      match Cursor.next c with
      | .ok c' => Reaches end_ c' xs
      | .error _ => False

/-- The enumerable `e` is the finite sequence `xs`: traversing from `_begin` produces `xs`
and then arrives at `_end`, and `_end` compares equal to itself. -/
def linq_enumerable.Yields {σ T : Type} [Cursor σ T] (e : linq_enumerable σ)
    (xs : List T) : Prop :=
  Reaches e._end e._begin xs ∧ Cursor.equals e._end e._end = true

/-! ## Basic facts -/

section basics

variable {σ T : Type} [Cursor σ T]

theorem Reaches.nil_iff (e c : σ) : Reaches e c ([] : List T) ↔ Cursor.equals c e = true :=
  Iff.rfl

theorem Reaches.cons_iff (e c : σ) (x : T) (xs : List T) :
    Reaches e c (x :: xs) ↔
      Cursor.equals c e = false ∧ Cursor.deref c = .ok x ∧ xs.length < Cursor.fuel c ∧
        ∃ c', Cursor.next c = .ok c' ∧ Reaches e c' xs := by
  constructor
  · rintro ⟨h1, h2, h3, h4⟩
    refine ⟨h1, h2, h3, ?_⟩
    cases hn : Cursor.next c with
    | ok c' => rw [hn] at h4; exact ⟨c', rfl, h4⟩
    | error err => rw [hn] at h4; exact h4.elim
  · rintro ⟨h1, h2, h3, c', hn, h4⟩
    refine ⟨h1, h2, h3, ?_⟩
    rw [hn]; exact h4

theorem Reaches.length_le {e c : σ} {xs : List T} (h : Reaches e c xs) :
    xs.length ≤ Cursor.fuel c := by
  cases xs with
  | nil => exact Nat.zero_le _
  | cons x xs => exact ((Reaches.cons_iff e c x xs).1 h).2.2.1

theorem Reaches.equals_false_iff {e c : σ} {xs : List T} (h : Reaches e c xs) :
    Cursor.equals c e = false ↔ xs ≠ [] := by
  cases xs with
  | nil => simp [(Reaches.nil_iff e c).1 h]
  | cons x xs => simp [((Reaches.cons_iff e c x xs).1 h).1]

theorem to_vector_loop_of_reaches (e : σ) :
    ∀ (xs : List T) (c : σ) (n : Nat) (acc : List T), Reaches e c xs → xs.length < n →
      linq_enumerable.to_vector_loop e n c acc = .ok (acc ++ xs)
  | [], c, n, acc, h, hn => by
    obtain ⟨m, rfl⟩ : ∃ m, n = m + 1 := ⟨n - 1, by simp at hn; omega⟩
    simp [linq_enumerable.to_vector_loop, (Reaches.nil_iff e c).1 h]
  | x :: xs, c, n, acc, h, hn => by
    obtain ⟨m, rfl⟩ : ∃ m, n = m + 1 := ⟨n - 1, by simp at hn; omega⟩
    obtain ⟨h1, h2, _, c', h4, h5⟩ := (Reaches.cons_iff e c x xs).1 h
    have ih := to_vector_loop_of_reaches e xs c' m (acc ++ [x]) h5 (by simpa using hn)
    simp [linq_enumerable.to_vector_loop, h1, h2, h4, ih, bind, Except.bind]

theorem to_vector_of_yields {e : linq_enumerable σ} {xs : List T} (h : e.Yields xs) :
    e.to_vector = .ok xs := by
  have := to_vector_loop_of_reaches e._end xs e._begin (Cursor.fuel e._begin + 1) [] h.1
    (Nat.lt_succ_of_le h.1.length_le)
  simpa [linq_enumerable.to_vector] using this

theorem int_wrap_of_range {x : Int} (h1 : -2 ^ 31 ≤ x) (h2 : x < 2 ^ 31) : int_wrap x = x := by
  unfold int_wrap
  rw [Int.emod_eq_of_lt (by omega) (by omega)]
  omega

theorem count_loop_of_reaches (e : σ) :
    ∀ (xs : List T) (c : σ) (n : Nat) (k : Int), Reaches e c xs → xs.length < n →
      -2 ^ 31 ≤ k → k + xs.length < 2 ^ 31 →
      linq_enumerable.count_loop e n c k = .ok (k + xs.length)
  | [], c, n, k, h, hn, _, _ => by
    obtain ⟨m, rfl⟩ : ∃ m, n = m + 1 := ⟨n - 1, by simp at hn; omega⟩
    simp [linq_enumerable.count_loop, (Reaches.nil_iff e c).1 h]
  | x :: xs, c, n, k, h, hn, hk1, hk2 => by
    obtain ⟨m, rfl⟩ : ∃ m, n = m + 1 := ⟨n - 1, by simp at hn; omega⟩
    obtain ⟨h1, _, _, c', h4, h5⟩ := (Reaches.cons_iff e c x xs).1 h
    simp only [List.length_cons, Nat.cast_add, Nat.cast_one] at hk2
    have hw : int_wrap (k + 1) = k + 1 := int_wrap_of_range (by omega) (by omega)
    have ih := count_loop_of_reaches e xs c' m (k + 1) h5 (by simpa using hn)
      (by omega) (by omega)
    simp only [linq_enumerable.count_loop, h1, h4, hw, ih, bind, Except.bind]
    simp only [List.length_cons, Nat.cast_add, Nat.cast_one]
    simp
    omega

theorem count_of_yields {e : linq_enumerable σ} {xs : List T} (h : e.Yields xs)
    (hlen : (xs.length : Int) < 2 ^ 31) : e.count = .ok (xs.length : Int) := by
  have := count_loop_of_reaches e._end xs e._begin (Cursor.fuel e._begin + 1) 0 h.1
    (Nat.lt_succ_of_le h.1.length_le) (by omega) (by omega)
  simpa [linq_enumerable.count] using this

theorem empty_of_yields {e : linq_enumerable σ} {xs : List T} (h : e.Yields xs) :
    e.empty = true ↔ xs = [] := by
  have := h.1.equals_false_iff
  unfold linq_enumerable.empty
  cases hq : Cursor.equals e._begin e._end <;> simp_all

end basics

/-! ## Containers are finite sequences -/

theorem vector_reaches {T : Type} :
    ∀ (suf pre : List T),
      Reaches (vector_end (pre ++ suf)) (⟨pre ++ suf, pre.length⟩ : vector_iterator T) suf
  | [], pre => by
    simp [Reaches, Cursor.equals, vector_iterator.equals, vector_end]
  | x :: suf, pre => by
    have ih := vector_reaches suf (pre ++ [x])
    simp only [List.append_assoc, List.singleton_append, List.length_append,
      List.length_singleton] at ih
    rw [Reaches.cons_iff]
    refine ⟨?_, ?_, ?_, ⟨pre ++ x :: suf, pre.length + 1⟩, ?_, ih⟩
    · simp [Cursor.equals, vector_iterator.equals, vector_end]
    · have hx : (pre ++ x :: suf)[pre.length]? = some x := by
        rw [List.getElem?_append_right (le_refl _)]; simp
      simp [Cursor.deref, vector_iterator.deref, hx]
    · simp [Cursor.fuel]
    · simp [Cursor.next, vector_iterator.next]

theorem from_yields {T : Type} (xs : List T) : (from_ xs).Yields xs :=
  ⟨by simpa [from_, vector_begin] using vector_reaches xs [],
   by simp [from_, Cursor.equals, vector_iterator.equals]⟩

/-! ## `select` -/

section select

variable {σ T U : Type} [Cursor σ T]

theorem select_reaches (f : T → U) (e : σ) :
    ∀ (xs : List T) (c : σ), Reaches e c xs →
      Reaches (⟨e, f⟩ : select_iterator σ T U) ⟨c, f⟩ (xs.map f)
  | [], c, h => by
    simpa [Reaches, Cursor.equals] using h
  | x :: xs, c, h => by
    obtain ⟨h1, h2, h3, c', h4, h5⟩ := (Reaches.cons_iff e c x xs).1 h
    rw [List.map_cons, Reaches.cons_iff]
    refine ⟨h1, ?_, ?_, ⟨c', f⟩, ?_, select_reaches f e xs c' h5⟩
    · simp [Cursor.deref, h2, bind, Except.bind, pure, Except.pure]
    · simpa [Cursor.fuel] using h3
    · simp [Cursor.next, h4, bind, Except.bind, pure, Except.pure]

theorem select_yields {S : linq_enumerable σ} {xs : List T} (h : S.Yields xs) (f : T → U) :
    (S.select f).Yields (xs.map f) :=
  ⟨select_reaches f S._end xs S._begin h.1, h.2⟩

end select

/-! ## `where` -/

section where_

variable {σ T : Type} [Cursor σ T]

theorem where_move_loop_spec (e : σ) (f : T → Bool) :
    ∀ (xs : List T) (c : σ) (n : Nat), Reaches e c xs → xs.length < n →
      ∃ c', where_iterator.move_loop e f n c = .ok c' ∧
        Reaches e c' (xs.dropWhile (fun x => !f x))
  | [], c, n, h, hn => by
    obtain ⟨m, rfl⟩ : ∃ m, n = m + 1 := ⟨n - 1, by simp at hn; omega⟩
    exact ⟨c, by simp [where_iterator.move_loop, (Reaches.nil_iff e c).1 h], h⟩
  | x :: xs, c, n, h, hn => by
    obtain ⟨m, rfl⟩ : ∃ m, n = m + 1 := ⟨n - 1, by simp at hn; omega⟩
    obtain ⟨h1, h2, _, c', h4, h5⟩ := (Reaches.cons_iff e c x xs).1 h
    cases hf : f x with
    | true =>
      exact ⟨c, by simp [where_iterator.move_loop, h1, h2, hf, bind, Except.bind],
        by simpa [List.dropWhile, hf] using h⟩
    | false =>
      obtain ⟨c2, hc2, hr⟩ := where_move_loop_spec e f xs c' m h5 (by simpa using hn)
      exact ⟨c2, by simp [where_iterator.move_loop, h1, h2, hf, h4, hc2, bind, Except.bind],
        by simpa [List.dropWhile, hf] using hr⟩

theorem filter_dropWhile_not (f : T → Bool) (xs : List T) :
    (xs.dropWhile (fun x => !f x)).filter f = xs.filter f := by
  induction xs with
  | nil => rfl
  | cons x xs ih => cases hf : f x <;> simp [List.dropWhile, List.filter, hf, ih]

theorem length_dropWhile_le (p : T → Bool) (xs : List T) :
    (xs.dropWhile p).length ≤ xs.length := by
  induction xs with
  | nil => simp
  | cons x xs ih =>
    cases hp : p x
    · simp [List.dropWhile, hp]
    · simp only [List.dropWhile, hp, List.length_cons]; omega

/-- A `where` cursor resting on the end or on an element satisfying `f` produces the
remaining elements that satisfy `f`. -/
theorem where_reaches (e : σ) (f : T → Bool) :
    ∀ (k : Nat) (xs : List T) (c : σ), xs.length ≤ k → Reaches e c xs →
      (∀ x, xs.head? = some x → f x = true) →
      Reaches (⟨e, e, f⟩ : where_iterator σ T) ⟨c, e, f⟩ (xs.filter f)
  | _, [], c, _, h, _ => by
    simpa [Reaches, Cursor.equals] using h
  | 0, x :: xs, c, hk, _, _ => by simp at hk
  | k + 1, x :: xs, c, hk, h, hx => by
    obtain ⟨h1, h2, h3, c', h4, h5⟩ := (Reaches.cons_iff e c x xs).1 h
    have hf : f x = true := hx x rfl
    obtain ⟨c2, hc2, hr⟩ := where_move_loop_spec e f xs c' (Cursor.fuel c' + 1) h5
      (Nat.lt_succ_of_le h5.length_le)
    have hlen : (xs.dropWhile (fun x => !f x)).length ≤ k :=
      le_trans (length_dropWhile_le _ xs) (by simpa using hk)
    have hhead : ∀ y, (xs.dropWhile (fun x => !f x)).head? = some y → f y = true := by
      intro y hy
      have := List.head?_dropWhile_not (fun x => !f x) xs
      rw [hy] at this
      simpa using this
    have ih := where_reaches e f k _ c2 hlen hr hhead
    rw [filter_dropWhile_not] at ih
    rw [List.filter_cons_of_pos hf, Reaches.cons_iff]
    refine ⟨h1, h2, ?_, ⟨c2, e, f⟩, ?_, ih⟩
    · exact lt_of_le_of_lt (List.length_filter_le f xs) h3
    · simp [Cursor.next, where_iterator.move_iterator, h1, h4, hc2, bind, Except.bind,
        pure, Except.pure]

theorem where_yields {S : linq_enumerable σ} {xs : List T} (h : S.Yields xs) (f : T → Bool) :
    ∃ W, S.where_ f = .ok W ∧ W.Yields (xs.filter f) := by
  obtain ⟨hr, he⟩ := h
  obtain ⟨c2, hc2, hr2⟩ := where_move_loop_spec S._end f xs S._begin
    (Cursor.fuel S._begin + 1) hr (Nat.lt_succ_of_le hr.length_le)
  have hhead : ∀ y, (xs.dropWhile (fun x => !f x)).head? = some y → f y = true := by
    intro y hy
    have := List.head?_dropWhile_not (fun x => !f x) xs
    rw [hy] at this
    simpa using this
  have hw := where_reaches S._end f _ _ c2 (le_refl _) hr2 hhead
  rw [filter_dropWhile_not] at hw
  cases hb : Cursor.equals S._begin S._end with
  | true =>
    have hxs : xs = [] := by
      by_contra hne
      have := hr.equals_false_iff.2 hne
      rw [hb] at this; cases this
    subst hxs
    refine ⟨⟨⟨S._begin, S._end, f⟩, ⟨S._end, S._end, f⟩⟩, ?_, ?_, ?_⟩
    · simp [linq_enumerable.where_, where_iterator.create, where_iterator.move_iterator,
        hb, he, bind, Except.bind, pure, Except.pure]
    · simpa [Reaches, Cursor.equals] using hb
    · simpa [Cursor.equals] using he
  | false =>
    refine ⟨⟨⟨c2, S._end, f⟩, ⟨S._end, S._end, f⟩⟩, ?_, hw, ?_⟩
    · simp [linq_enumerable.where_, where_iterator.create, where_iterator.move_iterator,
        hb, he, hc2, bind, Except.bind, pure, Except.pure]
    · simpa [Cursor.equals] using he

end where_

/-! ## `skip` and `skip_while` -/

section skip

variable {σ T : Type} [Cursor σ T]

theorem skip_loop_spec (e : σ) (count : Int) (hc : count < 2 ^ 31) :
    ∀ (xs : List T) (c : σ) (n : Nat) (i : Int), Reaches e c xs → xs.length < n → 0 ≤ i →
      ∃ c', skip_iterator.skip_loop e count n i c = .ok c' ∧
        Reaches e c' (xs.drop (count - i).toNat)
  | [], c, n, i, h, hn, _ => by
    obtain ⟨m, rfl⟩ : ∃ m, n = m + 1 := ⟨n - 1, by simp at hn; omega⟩
    exact ⟨c, by simp [skip_iterator.skip_loop, (Reaches.nil_iff e c).1 h], by simpa using h⟩
  | x :: xs, c, n, i, h, hn, hi => by
    obtain ⟨m, rfl⟩ : ∃ m, n = m + 1 := ⟨n - 1, by simp at hn; omega⟩
    obtain ⟨h1, _, _, c', h4, h5⟩ := (Reaches.cons_iff e c x xs).1 h
    by_cases hlt : i < count
    · have hw : int_wrap (i + 1) = i + 1 := int_wrap_of_range (by omega) (by omega)
      obtain ⟨c2, hc2, hr⟩ := skip_loop_spec e count hc xs c' m (i + 1) h5
        (by simpa using hn) (by omega)
      have hk : (count - i).toNat = (count - (i + 1)).toNat + 1 := by omega
      refine ⟨c2, ?_, ?_⟩
      · simp [skip_iterator.skip_loop, hlt, h1, h4, hw, hc2, bind, Except.bind]
      · rw [hk, List.drop_succ_cons]; exact hr
    · have hk : (count - i).toNat = 0 := by omega
      refine ⟨c, ?_, ?_⟩
      · simp [skip_iterator.skip_loop, hlt]
      · rw [hk, List.drop_zero]; exact h

theorem skip_reaches (e : σ) :
    ∀ (xs : List T) (c : σ), Reaches e c xs →
      Reaches (⟨e, e⟩ : skip_iterator σ) ⟨c, e⟩ xs
  | [], c, h => by
    simpa [Reaches, Cursor.equals] using h
  | x :: xs, c, h => by
    obtain ⟨h1, h2, h3, c', h4, h5⟩ := (Reaches.cons_iff e c x xs).1 h
    rw [Reaches.cons_iff]
    refine ⟨h1, h2, h3, ⟨c', e⟩, ?_, skip_reaches e xs c' h5⟩
    simp [Cursor.next, h4, bind, Except.bind, pure, Except.pure]

/-- The sequence produced by `skip(count)` for every `int` argument. -/
theorem skip_yields {S : linq_enumerable σ} {xs : List T} (h : S.Yields xs) (count : Int)
    (hc : count < 2 ^ 31) :
    ∃ W, S.skip count = .ok W ∧ W.Yields (xs.drop count.toNat) := by
  obtain ⟨hr, he⟩ := h
  obtain ⟨c2, hc2, hr2⟩ := skip_loop_spec S._end count hc xs S._begin
    (Cursor.fuel S._begin + 1) 0 hr (Nat.lt_succ_of_le hr.length_le) (le_refl _)
  obtain ⟨c3, hc3, hr3⟩ := skip_loop_spec S._end count hc ([] : List T) S._end
    (Cursor.fuel S._end + 1) 0 he (by simp) (le_refl _)
  have hc3e : c3 = S._end := by
    simp [skip_iterator.skip_loop, he] at hc3
    exact hc3.symm
  subst hc3e
  refine ⟨⟨⟨c2, S._end⟩, ⟨S._end, S._end⟩⟩, ?_, ?_, ?_⟩
  · simp [linq_enumerable.skip, skip_iterator.create, hc2, hc3, bind, Except.bind, pure,
      Except.pure]
  · simpa using skip_reaches S._end _ c2 hr2
  · simpa [Cursor.equals] using he

theorem skip_while_loop_spec (e : σ) (f : T → Bool) :
    ∀ (xs : List T) (c : σ) (n : Nat), Reaches e c xs → xs.length < n →
      ∃ c', skip_while_iterator.skip_loop e f n c = .ok c' ∧ Reaches e c' (xs.dropWhile f)
  | [], c, n, h, hn => by
    obtain ⟨m, rfl⟩ : ∃ m, n = m + 1 := ⟨n - 1, by simp at hn; omega⟩
    exact ⟨c, by simp [skip_while_iterator.skip_loop, (Reaches.nil_iff e c).1 h], h⟩
  | x :: xs, c, n, h, hn => by
    obtain ⟨m, rfl⟩ : ∃ m, n = m + 1 := ⟨n - 1, by simp at hn; omega⟩
    obtain ⟨h1, h2, _, c', h4, h5⟩ := (Reaches.cons_iff e c x xs).1 h
    cases hf : f x with
    | false =>
      exact ⟨c, by simp [skip_while_iterator.skip_loop, h1, h2, hf, bind, Except.bind],
        by simpa [List.dropWhile, hf] using h⟩
    | true =>
      obtain ⟨c2, hc2, hr⟩ := skip_while_loop_spec e f xs c' m h5 (by simpa using hn)
      exact ⟨c2,
        by simp [skip_while_iterator.skip_loop, h1, h2, hf, h4, hc2, bind, Except.bind],
        by simpa [List.dropWhile, hf] using hr⟩

theorem skip_while_reaches (e : σ) (f : T → Bool) :
    ∀ (xs : List T) (c : σ), Reaches e c xs →
      Reaches (⟨e, e, f⟩ : skip_while_iterator σ T) ⟨c, e, f⟩ xs
  | [], c, h => by
    simpa [Reaches, Cursor.equals] using h
  | x :: xs, c, h => by
    obtain ⟨h1, h2, h3, c', h4, h5⟩ := (Reaches.cons_iff e c x xs).1 h
    rw [Reaches.cons_iff]
    refine ⟨h1, h2, h3, ⟨c', e, f⟩, ?_, skip_while_reaches e f xs c' h5⟩
    simp [Cursor.next, h4, bind, Except.bind, pure, Except.pure]

theorem skip_while_yields {S : linq_enumerable σ} {xs : List T} (h : S.Yields xs)
    (f : T → Bool) :
    ∃ W, S.skip_while f = .ok W ∧ W.Yields (xs.dropWhile f) := by
  obtain ⟨hr, he⟩ := h
  obtain ⟨c2, hc2, hr2⟩ := skip_while_loop_spec S._end f xs S._begin
    (Cursor.fuel S._begin + 1) hr (Nat.lt_succ_of_le hr.length_le)
  have hend : skip_while_iterator.skip_loop S._end f (Cursor.fuel S._end + 1) S._end
      = .ok S._end := by
    simp [skip_while_iterator.skip_loop, he]
  refine ⟨⟨⟨c2, S._end, f⟩, ⟨S._end, S._end, f⟩⟩, ?_, ?_, ?_⟩
  · simp [linq_enumerable.skip_while, skip_while_iterator.create, hc2, hend, bind,
      Except.bind, pure, Except.pure]
  · exact skip_while_reaches S._end f _ c2 hr2
  · simpa [Cursor.equals] using he

end skip

/-! ## `take` -/

section take

variable {σ T : Type} [Cursor σ T]

theorem take_create_end (e : σ) (count : Int) :
    take_iterator.create e e count = ⟨e, e, count, 0⟩ := by
  unfold take_iterator.create; split <;> rfl

theorem take_reaches (e : σ) (he : Cursor.equals e e = true) (count : Int)
    (hc : count < 2 ^ 31) :
    ∀ (xs : List T) (c : σ) (k : Int), Reaches e c xs → 0 ≤ k → k < count →
      Reaches (⟨e, e, count, 0⟩ : take_iterator σ) ⟨c, e, count, k⟩
        (xs.take (count - k).toNat)
  | [], c, k, h, _, _ => by
    simpa [Reaches, Cursor.equals] using h
  | x :: xs, c, k, h, hk0, hk => by
    obtain ⟨h1, h2, h3, c', h4, h5⟩ := (Reaches.cons_iff e c x xs).1 h
    have hw : int_wrap (k + 1) = k + 1 := int_wrap_of_range (by omega) (by omega)
    have hn : (count - k).toNat = (count - (k + 1)).toNat + 1 := by omega
    rw [hn, List.take_succ_cons, Reaches.cons_iff]
    refine ⟨h1, h2, lt_of_le_of_lt (List.length_take_le' _ _) h3, ?_⟩
    by_cases hq : k + 1 = count
    · refine ⟨⟨e, e, count, k + 1⟩, ?_, ?_⟩
      · simp only [Cursor.next, take_iterator.next, hw]
        simp [hq]
      · have hz : (count - (k + 1)).toNat = 0 := by omega
        rw [hz, List.take_zero]
        simpa [Reaches, Cursor.equals] using he
    · refine ⟨⟨c', e, count, k + 1⟩, ?_, ?_⟩
      · simp only [Cursor.next, take_iterator.next, hw]
        simp [hq, h4, bind, Except.bind, pure, Except.pure]
      · exact take_reaches e he count hc xs c' (k + 1) h5 (by omega) (by omega)

theorem take_yields {S : linq_enumerable σ} {xs : List T} (h : S.Yields xs) (count : Int)
    (h0 : 0 ≤ count) (hc : count < 2 ^ 31) :
    (S.take count).Yields (xs.take count.toNat) := by
  obtain ⟨hr, he⟩ := h
  refine ⟨?_, ?_⟩
  · simp only [linq_enumerable.take, take_create_end]
    by_cases hz : (0 : Int) = count
    · subst hz
      simpa [take_iterator.create, Reaches, Cursor.equals] using he
    · have := take_reaches S._end he count hc xs S._begin 0 hr (le_refl _) (by omega)
      simpa [take_iterator.create, hz] using this
  · simp only [linq_enumerable.take, take_create_end]
    simpa [Cursor.equals] using he

theorem take_reaches_of_neg (e : σ) (count : Int) (hc : count < 0) :
    ∀ (xs : List T) (c : σ) (k : Int), Reaches e c xs → 0 ≤ k →
      k + (xs.length : Int) < 2 ^ 31 →
      Reaches (⟨e, e, count, 0⟩ : take_iterator σ) ⟨c, e, count, k⟩ xs
  | [], c, k, h, _, _ => by
    simpa [Reaches, Cursor.equals] using h
  | x :: xs, c, k, h, hk0, hk => by
    obtain ⟨h1, h2, h3, c', h4, h5⟩ := (Reaches.cons_iff e c x xs).1 h
    simp only [List.length_cons, Nat.cast_add, Nat.cast_one] at hk
    have hw : int_wrap (k + 1) = k + 1 := int_wrap_of_range (by omega) (by omega)
    have hq : ¬ k + 1 = count := by omega
    rw [Reaches.cons_iff]
    refine ⟨h1, h2, h3, ⟨c', e, count, k + 1⟩, ?_, ?_⟩
    · simp only [Cursor.next, take_iterator.next, hw]
      simp [hq, h4, bind, Except.bind, pure, Except.pure]
    · exact take_reaches_of_neg e count hc xs c' (k + 1) h5 (by omega) (by omega)

/-- With a negative count the counter of `take` never meets the count on a sequence shorter
than `2 ^ 31`, so the whole sequence is produced. -/
theorem take_yields_of_neg {S : linq_enumerable σ} {xs : List T} (h : S.Yields xs)
    (count : Int) (hc : count < 0) (hlen : (xs.length : Int) < 2 ^ 31) :
    (S.take count).Yields xs := by
  obtain ⟨hr, he⟩ := h
  have hz : ¬ (0 : Int) = count := by omega
  refine ⟨?_, ?_⟩
  · simp only [linq_enumerable.take, take_create_end]
    have := take_reaches_of_neg S._end count hc xs S._begin 0 hr (le_refl _) (by omega)
    simpa [take_iterator.create, hz] using this
  · simp only [linq_enumerable.take, take_create_end]
    simpa [Cursor.equals] using he

end take

/-! ## `concat` -/

section concat

variable {σ₁ σ₂ T : Type} [Cursor σ₁ T] [Cursor σ₂ T]

/-- When the two operand classes fit the declared return type, `operator*` of
`concat_iterator` is the element of the current operand. -/
theorem concat_deref_of_fit (hfit : (yields_reference σ₁ && !yields_reference σ₂) = false)
    (c : concat_iterator σ₁ σ₂) :
    Cursor.deref c = if c.first then Cursor.deref c.current1 else Cursor.deref c.current2 := by
  simp only [Cursor.deref, concat_iterator.deref, hfit, bind, Except.bind, pure, Except.pure]
  split <;> split <;> simp_all

/-- When the first operand class yields references and the second yields values,
`operator*` of `concat_iterator` never produces a usable element. -/
theorem concat_deref_of_misfit (h1 : yields_reference σ₁ = true)
    (h2 : yields_reference σ₂ = false) (c : concat_iterator σ₁ σ₂) (x : T)
    (hx : (if c.first then Cursor.deref c.current1 else Cursor.deref c.current2) = .ok x) :
    Cursor.deref c = .error .dangling_reference := by
  simp only [Cursor.deref, concat_iterator.deref, h1, h2, bind, Except.bind]
  cases hf : c.first <;> simp only [hf, if_true, if_false, Bool.false_eq_true] at hx ⊢ <;>
    rw [hx] <;> rfl

theorem concat_reaches_second (hfit : (yields_reference σ₁ && !yields_reference σ₂) = false)
    (e1 : σ₁) (e2 : σ₂) (c1 : σ₁) :
    ∀ (ys : List T) (c2 : σ₂), Reaches e2 c2 ys →
      Reaches (⟨e1, e1, e2, e2, false⟩ : concat_iterator σ₁ σ₂) ⟨c1, e1, c2, e2, false⟩ ys
  | [], c2, h => by
    simpa [Reaches, Cursor.equals, concat_iterator.equals] using h
  | y :: ys, c2, h => by
    obtain ⟨h1, h2, h3, c', h4, h5⟩ := (Reaches.cons_iff e2 c2 y ys).1 h
    rw [Reaches.cons_iff]
    refine ⟨?_, ?_, ?_, ⟨c1, e1, c', e2, false⟩, ?_,
      concat_reaches_second hfit e1 e2 c1 ys c' h5⟩
    · simpa [Cursor.equals, concat_iterator.equals] using h1
    · rw [concat_deref_of_fit hfit]; simpa using h2
    · simp only [Cursor.fuel]; omega
    · simp [Cursor.next, concat_iterator.next, h4, bind, Except.bind, pure, Except.pure]

theorem concat_reaches_first (hfit : (yields_reference σ₁ && !yields_reference σ₂) = false)
    (e1 : σ₁) (e2 b2 : σ₂) (ys : List T) (hys : Reaches e2 b2 ys) :
    ∀ (xs : List T) (x : T) (c1 : σ₁), Reaches e1 c1 (x :: xs) →
      Reaches (⟨e1, e1, e2, e2, false⟩ : concat_iterator σ₁ σ₂) ⟨c1, e1, b2, e2, true⟩
        (x :: xs ++ ys)
  | xs, x, c1, h => by
    obtain ⟨_, h2, h3, c', h4, h5⟩ := (Reaches.cons_iff e1 c1 x xs).1 h
    have hlen := hys.length_le
    rw [List.cons_append, Reaches.cons_iff]
    refine ⟨?_, ?_, ?_, ?_⟩
    · simp [Cursor.equals, concat_iterator.equals]
    · rw [concat_deref_of_fit hfit]; simpa using h2
    · simp only [Cursor.fuel, List.length_append]; omega
    · cases xs with
      | nil =>
        have hq : Cursor.equals c' e1 = true := h5
        refine ⟨⟨c', e1, b2, e2, false⟩, ?_, ?_⟩
        · simp [Cursor.next, concat_iterator.next, h4, hq, bind, Except.bind, pure,
            Except.pure]
        · simpa using concat_reaches_second hfit e1 e2 c' ys b2 hys
      | cons x' xs' =>
        have hq : Cursor.equals c' e1 = false := ((Reaches.cons_iff e1 c' x' xs').1 h5).1
        refine ⟨⟨c', e1, b2, e2, true⟩, ?_, ?_⟩
        · simp [Cursor.next, concat_iterator.next, h4, hq, bind, Except.bind, pure,
            Except.pure]
        · exact concat_reaches_first hfit e1 e2 b2 ys hys xs' x' c' h5
termination_by xs _ _ _ => xs.length

/-- The sequence produced by `concat` when the operand classes fit the declared return type
of `operator*`. -/
theorem concat_yields {A : linq_enumerable σ₁} {B : linq_enumerable σ₂} {xs ys : List T}
    (hfit : (yields_reference σ₁ && !yields_reference σ₂) = false)
    (hA : A.Yields xs) (hB : B.Yields ys) : (A.concat B).Yields (xs ++ ys) := by
  obtain ⟨hr1, he1⟩ := hA
  obtain ⟨hr2, he2⟩ := hB
  refine ⟨?_, ?_⟩
  · cases xs with
    | nil =>
      have hq : Cursor.equals A._begin A._end = true := hr1
      simpa [linq_enumerable.concat, concat_iterator.create, he1, hq] using
        concat_reaches_second hfit A._end B._end A._begin ys B._begin hr2
    | cons x xs =>
      have hq : Cursor.equals A._begin A._end = false :=
        ((Reaches.cons_iff _ _ x xs).1 hr1).1
      simpa [linq_enumerable.concat, concat_iterator.create, he1, hq] using
        concat_reaches_first hfit A._end B._end B._begin ys hr2 xs x A._begin hr1
  · simp [linq_enumerable.concat, concat_iterator.create, he1, Cursor.equals,
      concat_iterator.equals, he2]

/-- With a first operand class that yields references and a second one that yields values,
the traversal of a non-empty `concat` reads a dangling reference at its first element. -/
theorem concat_misfit_faults {A : linq_enumerable σ₁} {B : linq_enumerable σ₂}
    {xs ys : List T} (h1 : yields_reference σ₁ = true) (h2 : yields_reference σ₂ = false)
    (hA : A.Yields xs) (hB : B.Yields ys) (hne : xs ++ ys ≠ []) :
    (A.concat B).to_vector = .error .dangling_reference := by
  obtain ⟨hr1, he1⟩ := hA
  obtain ⟨hr2, he2⟩ := hB
  cases xs with
  | nil =>
    have hq : Cursor.equals A._begin A._end = true := hr1
    cases ys with
    | nil => exact absurd rfl hne
    | cons y ys =>
      obtain ⟨g1, g2, _, _⟩ := (Reaches.cons_iff _ _ y ys).1 hr2
      have hd := concat_deref_of_misfit h1 h2
        (⟨A._begin, A._end, B._begin, B._end, false⟩ : concat_iterator σ₁ σ₂) y
        (by simpa using g2)
      simp [linq_enumerable.to_vector, linq_enumerable.to_vector_loop, linq_enumerable.concat,
        concat_iterator.create, he1, hq, Cursor.equals, concat_iterator.equals, g1, hd, bind,
        Except.bind]
  | cons x xs =>
    obtain ⟨g1, g2, _, _⟩ := (Reaches.cons_iff _ _ x xs).1 hr1
    have hd := concat_deref_of_misfit h1 h2
      (⟨A._begin, A._end, B._begin, B._end, true⟩ : concat_iterator σ₁ σ₂) x
      (by simpa using g2)
    simp [linq_enumerable.to_vector, linq_enumerable.to_vector_loop, linq_enumerable.concat,
      concat_iterator.create, he1, g1, Cursor.equals, concat_iterator.equals, hd, bind,
      Except.bind]

end concat

/-! ## `take_while` -/

section take_while

variable {σ T : Type} [Cursor σ T]

theorem take_while_reaches (e : σ) (he : Cursor.equals e e = true) (f : T → Bool) :
    ∀ (xs : List T) (x : T) (c : σ), Reaches e c (x :: xs) → f x = true →
      (∃ y ∈ xs, f y = false) →
      Reaches (⟨e, e, f⟩ : take_while_iterator σ T) ⟨c, e, f⟩ (x :: xs.takeWhile f)
  | [], x, c, _, _, hex => by simp at hex
  | y :: ys, x, c, h, _, hex => by
    obtain ⟨h1, h2, h3, c', h4, h5⟩ := (Reaches.cons_iff e c x (y :: ys)).1 h
    obtain ⟨_, hy2, _, _⟩ := (Reaches.cons_iff e c' y ys).1 h5
    rw [Reaches.cons_iff]
    refine ⟨h1, h2, lt_of_le_of_lt (List.takeWhile_sublist f).length_le h3, ?_⟩
    cases hfy : f y with
    | false =>
      refine ⟨⟨e, e, f⟩, ?_, ?_⟩
      · simp [Cursor.next, take_while_iterator.next, h4, hy2, hfy, bind, Except.bind, pure,
          Except.pure]
      · simpa [List.takeWhile, hfy, Reaches, Cursor.equals] using he
    | true =>
      have hex2 : ∃ z ∈ ys, f z = false := by
        obtain ⟨z, hz, hfz⟩ := hex
        rcases List.mem_cons.1 hz with rfl | hz
        · rw [hfy] at hfz; cases hfz
        · exact ⟨z, hz, hfz⟩
      refine ⟨⟨c', e, f⟩, ?_, ?_⟩
      · simp [Cursor.next, take_while_iterator.next, h4, hy2, hfy, bind, Except.bind, pure,
          Except.pure]
      · simpa [List.takeWhile, hfy] using take_while_reaches e he f ys y c' h5 hfy hex2

/-- The sequence produced by `take_while(f)` when some element of the source fails `f`, or
the source is empty. -/
theorem take_while_yields {S : linq_enumerable σ} {xs : List T} (h : S.Yields xs)
    (f : T → Bool) (hex : xs = [] ∨ ∃ y ∈ xs, f y = false) :
    ∃ W, S.take_while f = .ok W ∧ W.Yields (xs.takeWhile f) := by
  obtain ⟨hr, he⟩ := h
  have hend : take_while_iterator.create S._end S._end f = .ok ⟨S._end, S._end, f⟩ := by
    simp [take_while_iterator.create, he]
  cases xs with
  | nil =>
    have hq : Cursor.equals S._begin S._end = true := hr
    refine ⟨⟨⟨S._begin, S._end, f⟩, ⟨S._end, S._end, f⟩⟩, ?_, ?_, ?_⟩
    · simp [linq_enumerable.take_while, hend, bind, Except.bind, pure, Except.pure]
      simp [take_while_iterator.create, hq]
    · simpa [Reaches, Cursor.equals] using hq
    · simpa [Cursor.equals] using he
  | cons x xs =>
    obtain ⟨h1, h2, _, _⟩ := (Reaches.cons_iff _ _ x xs).1 hr
    have hex1 : ∃ y ∈ x :: xs, f y = false := by
      rcases hex with hnil | hex
      · cases hnil
      · exact hex
    cases hfx : f x with
    | false =>
      refine ⟨⟨⟨S._end, S._end, f⟩, ⟨S._end, S._end, f⟩⟩, ?_, ?_, ?_⟩
      · simp [linq_enumerable.take_while, hend, bind, Except.bind, pure, Except.pure]
        simp [take_while_iterator.create, h1, h2, hfx, bind, Except.bind, pure, Except.pure]
      · simpa [List.takeWhile, hfx, Reaches, Cursor.equals] using he
      · simpa [Cursor.equals] using he
    | true =>
      have hex2 : ∃ z ∈ xs, f z = false := by
        obtain ⟨z, hz, hfz⟩ := hex1
        rcases List.mem_cons.1 hz with rfl | hz
        · rw [hfx] at hfz; cases hfz
        · exact ⟨z, hz, hfz⟩
      refine ⟨⟨⟨S._begin, S._end, f⟩, ⟨S._end, S._end, f⟩⟩, ?_, ?_, ?_⟩
      · simp [linq_enumerable.take_while, hend, bind, Except.bind, pure, Except.pure]
        simp [take_while_iterator.create, h1, h2, hfx, bind, Except.bind, pure, Except.pure]
      · simpa [List.takeWhile, hfx] using
          take_while_reaches S._end he f xs x S._begin hr hfx hex2
      · simpa [Cursor.equals] using he

/-- Over a container all of whose remaining elements satisfy `f`, the traversal of
`take_while(f)` reads the past-the-end position. -/
theorem take_while_loop_faults (f : T → Bool) :
    ∀ (suf pre : List T) (x : T) (n : Nat) (acc : List T), suf.length < n →
      (∀ y ∈ x :: suf, f y = true) →
      linq_enumerable.to_vector_loop
        (⟨vector_end (pre ++ x :: suf), vector_end (pre ++ x :: suf), f⟩ :
          take_while_iterator (vector_iterator T) T) n
        ⟨⟨pre ++ x :: suf, pre.length⟩, vector_end (pre ++ x :: suf), f⟩ acc
        = .error .dereference_past_end
  | [], pre, x, n, acc, hn, _ => by
    obtain ⟨m, rfl⟩ : ∃ m, n = m + 1 := ⟨n - 1, by simp at hn; omega⟩
    have hx : (pre ++ [x])[pre.length]? = some x := by
      rw [List.getElem?_append_right (le_refl _)]; simp
    have hnone : (pre ++ [x])[pre.length + 1]? = none := by
      rw [List.getElem?_eq_none_iff]; simp
    simp [linq_enumerable.to_vector_loop, hnone, Cursor.equals, vector_iterator.equals, vector_end,
      Cursor.deref, vector_iterator.deref, hx, Cursor.next, take_while_iterator.next,
      vector_iterator.next, bind, Except.bind]
  | y :: suf, pre, x, n, acc, hn, hall => by
    obtain ⟨m, rfl⟩ : ∃ m, n = m + 1 := ⟨n - 1, by simp at hn; omega⟩
    have hx : (pre ++ x :: y :: suf)[pre.length]? = some x := by
      rw [List.getElem?_append_right (le_refl _)]; simp
    have hy : (pre ++ x :: y :: suf)[pre.length + 1]? = some y := by
      rw [List.getElem?_append_right (by omega)]; simp
    have hfy : f y = true := hall y (by simp)
    have ih := take_while_loop_faults f suf (pre ++ [x]) y m (acc ++ [x])
      (by simpa using hn) (fun z hz => hall z (List.mem_cons_of_mem _ hz))
    simp only [List.append_assoc, List.singleton_append, List.length_append,
      List.length_singleton] at ih
    simp [linq_enumerable.to_vector_loop, Cursor.equals, vector_iterator.equals, vector_end,
      Cursor.deref, vector_iterator.deref, hx, hy, hfy, Cursor.next,
      take_while_iterator.next, vector_iterator.next, bind, Except.bind, pure, Except.pure]
    simpa [vector_end] using ih

end take_while

/-! ## Erasure and `from_values` -/

section erasure

variable {K : Type} [DecidableEq K] {El : K → Type} {T : Type} [∀ k, Cursor (El k) T]

theorem hide_type_equals (k : Option K) (c e : boxed_iterator El T k) :
    Cursor.equals (hide_type_iterator.create El T k c) (hide_type_iterator.create El T k e)
      = Cursor.equals c e := by
  simp [Cursor.equals, hide_type_iterator.create, iterator_implement.equals,
    iterator_implement.dynamic_pointer_cast]

theorem hide_type_reaches (k : Option K) (e : boxed_iterator El T k) :
    ∀ (xs : List T) (c : boxed_iterator El T k), Reaches e c xs →
      Reaches (hide_type_iterator.create El T k e) (hide_type_iterator.create El T k c) xs
  | [], c, h => by
    rw [Reaches.nil_iff] at h ⊢
    rw [hide_type_equals]; exact h
  | x :: xs, c, h => by
    obtain ⟨h1, h2, h3, c', h4, h5⟩ := (Reaches.cons_iff e c x xs).1 h
    rw [Reaches.cons_iff]
    refine ⟨?_, ?_, ?_, hide_type_iterator.create El T k c', ?_,
      hide_type_reaches k e xs c' h5⟩
    · rw [hide_type_equals]; exact h1
    · simpa [Cursor.deref, hide_type_iterator.create, iterator_implement.deref] using h2
    · simpa [Cursor.fuel, hide_type_iterator.create] using h3
    · simp [Cursor.next, hide_type_iterator.create, iterator_implement.next, h4, bind,
        Except.bind, pure, Except.pure]

/-- Erasing an enumerable keeps the sequence it stands for. -/
theorem linq_create_yields (k : Option K) {e : linq_enumerable (boxed_iterator El T k)}
    {xs : List T} (h : e.Yields xs) : (linq.create El T k e).Yields xs :=
  ⟨hide_type_reaches k e._end xs e._begin h.1, by
    simpa [linq.create, hide_type_equals] using h.2⟩

theorem storage_reaches (values : List T) (e : vector_iterator T) :
    ∀ (xs : List T) (c : vector_iterator T), Reaches e c xs →
      Reaches (⟨values, e⟩ : storage_iterator T) ⟨values, c⟩ xs
  | [], c, h => by
    simpa [Reaches, Cursor.equals] using h
  | x :: xs, c, h => by
    obtain ⟨h1, h2, h3, c', h4, h5⟩ := (Reaches.cons_iff e c x xs).1 h
    rw [Reaches.cons_iff]
    refine ⟨h1, h2, h3, ⟨values, c'⟩, ?_, storage_reaches values e xs c' h5⟩
    simp only [Cursor.next] at h4 ⊢
    simp [h4, bind, Except.bind, pure, Except.pure]

theorem from_values_yields (El : K → Type) [∀ k, Cursor (El k) T] (xs : List T) :
    (from_values El xs).Yields xs := by
  have h := from_yields xs
  refine linq_create_yields none ⟨?_, ?_⟩
  · exact storage_reaches xs (vector_end xs) xs (vector_begin xs) h.1
  · exact h.2

end erasure

/-! ## The set operators -/

section sets

variable {T : Type} [LinearOrder T]

theorem set_insert_spec (x : T) :
    ∀ (set : List T), set.Sorted (· < ·) →
      (set_insert x set).1.Sorted (· < ·) ∧
      (∀ z, z ∈ (set_insert x set).1 ↔ z = x ∨ z ∈ set) ∧
      ((set_insert x set).2 = true ↔ x ∉ set)
  | [], _ => by simp [set_insert]
  | y :: ys, hs => by
    have hys : ys.Sorted (· < ·) := hs.of_cons
    have hy : ∀ z ∈ ys, y < z := fun z hz => List.rel_of_sorted_cons hs z hz
    obtain ⟨ih1, ih2, ih3⟩ := set_insert_spec x ys hys
    unfold set_insert
    by_cases hxy : x < y
    · simp only [hxy, if_true]
      refine ⟨?_, ?_, ?_⟩
      · exact List.Sorted.cons hxy hs
      · intro z; simp
      · simp only [true_iff, List.mem_cons, not_or]
        exact ⟨ne_of_lt hxy, fun hx => lt_asymm hxy (hy x hx)⟩
    · by_cases hyx : y < x
      · simp only [hxy, hyx, if_true, if_false]
        refine ⟨?_, ?_, ?_⟩
        · refine List.sorted_cons.2 ⟨?_, ih1⟩
          intro z hz
          rcases (ih2 z).1 hz with rfl | hz
          · exact hyx
          · exact hy z hz
        · intro z
          simp only [List.mem_cons, ih2 z]
          tauto
        · rw [ih3]
          simp only [List.mem_cons, not_or]
          exact ⟨fun h => ⟨ne_of_gt hyx, h⟩, fun h => h.2⟩
      · have heq : x = y := le_antisymm (not_lt.1 hyx) (not_lt.1 hxy)
        subst heq
        simp only [lt_self_iff_false, if_false]
        refine ⟨hs, ?_, ?_⟩
        · intro z; simp
        · simp

end sets

section set_loops

variable {σ T : Type} [Cursor σ T] [LinearOrder T]

theorem set_of_range_spec (e : σ) :
    ∀ (os : List T) (c : σ) (n : Nat) (set : List T), Reaches e c os → os.length < n →
      set.Sorted (· < ·) →
      ∃ s, set_of_range e n c set = .ok s ∧ s.Sorted (· < ·) ∧
        ∀ z, z ∈ s ↔ z ∈ set ∨ z ∈ os
  | [], c, n, set, h, hn, hs => by
    obtain ⟨m, rfl⟩ : ∃ m, n = m + 1 := ⟨n - 1, by simp at hn; omega⟩
    exact ⟨set, by simp [set_of_range, (Reaches.nil_iff e c).1 h], hs, by simp⟩
  | x :: os, c, n, set, h, hn, hs => by
    obtain ⟨m, rfl⟩ : ∃ m, n = m + 1 := ⟨n - 1, by simp at hn; omega⟩
    obtain ⟨h1, h2, _, c', h4, h5⟩ := (Reaches.cons_iff e c x os).1 h
    obtain ⟨i1, i2, _⟩ := set_insert_spec x set hs
    obtain ⟨s, hs1, hs2, hs3⟩ := set_of_range_spec e os c' m (set_insert x set).1 h5
      (by simpa using hn) i1
    refine ⟨s, ?_, hs2, ?_⟩
    · simp [set_of_range, h1, h2, h4, hs1, bind, Except.bind]
    · intro z
      rw [hs3 z, i2 z, List.mem_cons]
      tauto

theorem push_new_loop_spec (e : σ) :
    ∀ (xs : List T) (c : σ) (n : Nat) (set seen acc : List T), Reaches e c xs →
      xs.length < n → set.Sorted (· < ·) → (∀ z, z ∈ set ↔ z ∈ seen) →
      push_new_loop e n c set acc = .ok (acc ++ keep_new seen xs)
  | [], c, n, set, seen, acc, h, hn, _, _ => by
    obtain ⟨m, rfl⟩ : ∃ m, n = m + 1 := ⟨n - 1, by simp at hn; omega⟩
    simp [push_new_loop, (Reaches.nil_iff e c).1 h, keep_new]
  | x :: xs, c, n, set, seen, acc, h, hn, hs, hmem => by
    obtain ⟨m, rfl⟩ : ∃ m, n = m + 1 := ⟨n - 1, by simp at hn; omega⟩
    obtain ⟨h1, h2, _, c', h4, h5⟩ := (Reaches.cons_iff e c x xs).1 h
    obtain ⟨i1, i2, i3⟩ := set_insert_spec x set hs
    by_cases hx : x ∈ seen
    · have hflag : (set_insert x set).2 = false := by
        cases hq : (set_insert x set).2 with
        | false => rfl
        | true => exact absurd ((hmem x).2 hx) (i3.1 hq)
      have hmem2 : ∀ z, z ∈ (set_insert x set).1 ↔ z ∈ seen := by
        intro z
        rw [i2 z, hmem z]
        constructor
        · rintro (rfl | hz)
          · exact hx
          · exact hz
        · exact Or.inr
      have ih := push_new_loop_spec e xs c' m (set_insert x set).1 seen acc h5
        (by simpa using hn) i1 hmem2
      simp [push_new_loop, h1, h2, h4, hflag, ih, keep_new, hx, bind, Except.bind, pure,
        Except.pure]
    · have hflag : (set_insert x set).2 = true :=
        i3.2 (fun hin => hx ((hmem x).1 hin))
      have hmem2 : ∀ z, z ∈ (set_insert x set).1 ↔ z ∈ x :: seen := by
        intro z
        rw [i2 z, hmem z, List.mem_cons]
      have ih := push_new_loop_spec e xs c' m (set_insert x set).1 (x :: seen) (acc ++ [x]) h5
        (by simpa using hn) i1 hmem2
      simp [push_new_loop, h1, h2, h4, hflag, ih, keep_new, hx, bind, Except.bind, pure,
        Except.pure]

end set_loops

section keep_new

variable {T : Type} [DecidableEq T]

theorem mem_keep_new (z : T) :
    ∀ (xs seen : List T), z ∈ keep_new seen xs ↔ z ∈ xs ∧ z ∉ seen
  | [], seen => by simp [keep_new]
  | x :: xs, seen => by
    unfold keep_new
    by_cases hx : x ∈ seen
    · simp only [hx, if_true, mem_keep_new z xs seen, List.mem_cons]
      constructor
      · rintro ⟨h1, h2⟩; exact ⟨Or.inr h1, h2⟩
      · rintro ⟨h1 | h1, h2⟩
        · subst h1; exact absurd hx h2
        · exact ⟨h1, h2⟩
    · simp only [hx, if_false, List.mem_cons, mem_keep_new z xs (x :: seen), not_or]
      constructor
      · rintro (h | ⟨h1, h2, h3⟩)
        · subst h; exact ⟨Or.inl rfl, hx⟩
        · exact ⟨Or.inr h1, h3⟩
      · rintro ⟨h1 | h1, h2⟩
        · exact Or.inl h1
        · by_cases hzx : z = x
          · exact Or.inl hzx
          · exact Or.inr ⟨h1, hzx, h2⟩

theorem nodup_keep_new : ∀ (xs seen : List T), (keep_new seen xs).Nodup
  | [], seen => by simp [keep_new]
  | x :: xs, seen => by
    unfold keep_new
    by_cases hx : x ∈ seen
    · simpa [hx] using nodup_keep_new xs seen
    · simp only [hx, if_false, List.nodup_cons]
      refine ⟨?_, nodup_keep_new xs (x :: seen)⟩
      rw [mem_keep_new]
      simp

theorem pairwise_keep_new :
    ∀ (xs seen : List T),
      (keep_new seen xs).Pairwise (fun a b => xs.indexOf a < xs.indexOf b)
  | [], seen => by simp [keep_new]
  | x :: xs, seen => by
    have shift : ∀ (s : List T), x ∈ s →
        (keep_new s xs).Pairwise (fun a b => (x :: xs).indexOf a < (x :: xs).indexOf b) := by
      intro s hxs
      refine (pairwise_keep_new xs s).imp_of_mem ?_
      intro a b ha hb hab
      have hane : a ≠ x := fun h => ((mem_keep_new a xs s).1 ha).2 (h ▸ hxs)
      have hbne : b ≠ x := fun h => ((mem_keep_new b xs s).1 hb).2 (h ▸ hxs)
      rw [List.indexOf_cons_ne _ (Ne.symm hane), List.indexOf_cons_ne _ (Ne.symm hbne)]
      omega
    unfold keep_new
    by_cases hx : x ∈ seen
    · simpa [hx] using shift seen hx
    · simp only [hx, if_false, List.pairwise_cons]
      refine ⟨?_, shift (x :: seen) (List.mem_cons_self _ _)⟩
      intro b hb
      have hbne : b ≠ x := fun h =>
        ((mem_keep_new b xs (x :: seen)).1 hb).2 (h ▸ List.mem_cons_self _ _)
      rw [List.indexOf_cons_self, List.indexOf_cons_ne _ (Ne.symm hbne)]
      omega

theorem keep_new_eq_filter :
    ∀ (xs s0 s s1 : List T), (∀ z, z ∈ s1 ↔ z ∈ s0 ∨ z ∈ s) →
      keep_new s1 xs = (keep_new s0 xs).filter (fun z => decide (z ∉ s))
  | [], _, _, _, _ => by simp [keep_new]
  | x :: xs, s0, s, s1, h => by
    unfold keep_new
    by_cases h0 : x ∈ s0
    · have h1 : x ∈ s1 := (h x).2 (Or.inl h0)
      simp only [h0, h1, if_true]
      exact keep_new_eq_filter xs s0 s s1 h
    · by_cases hs : x ∈ s
      · have h1 : x ∈ s1 := (h x).2 (Or.inr hs)
        simp only [h0, h1, if_true, if_false]
        rw [List.filter_cons_of_neg (by simpa using hs)]
        refine keep_new_eq_filter xs (x :: s0) s s1 ?_
        intro z
        rw [h z, List.mem_cons]
        constructor
        · rintro (hz | hz)
          · exact Or.inl (Or.inr hz)
          · exact Or.inr hz
        · rintro ((rfl | hz) | hz)
          · exact Or.inr hs
          · exact Or.inl hz
          · exact Or.inr hz
      · have h1 : x ∉ s1 := fun hx => ((h x).1 hx).elim h0 hs
        simp only [h0, h1, if_false]
        rw [List.filter_cons_of_pos (by simpa using hs)]
        congr 1
        refine keep_new_eq_filter xs (x :: s0) s (x :: s1) ?_
        intro z
        simp only [List.mem_cons, h z]
        tauto

end keep_new

/-! ## The lazy adapters -/

/-- C1: for every finite sequence `S` with elements `xs` and every predicate `f`,
`S.where(f)` is constructed without fault, is itself a finite sequence, and `to_vector` of it
is exactly `List.filter f xs`: the elements satisfying `f`, in their original order. -/
theorem where_to_vector {σ T : Type} [Cursor σ T] (S : linq_enumerable σ) (xs : List T)
    (f : T → Bool) (h : S.Yields xs) :
    ∃ W, S.where_ f = .ok W ∧ W.Yields (xs.filter f) ∧ W.to_vector = .ok (xs.filter f) := by
  obtain ⟨W, hW, hy⟩ := where_yields h f
  exact ⟨W, hW, hy, to_vector_of_yields hy⟩

theorem where_to_vector_witness :
    (from_ [1, 2, 3, 4, 5]).Yields [1, 2, 3, 4, 5] ∧
      ∃ W, (from_ [1, 2, 3, 4, 5]).where_ (fun x => x % 2 == 0) = .ok W ∧
        W.Yields [2, 4] ∧ W.to_vector = .ok [2, 4] :=
  ⟨from_yields _, where_to_vector _ _ (fun x => x % 2 == 0) (from_yields _)⟩

/-- C3: for every finite sequence `S` with elements `xs` and every `int` count `n ≥ 0`,
`S.take(n)` is the finite sequence of the first `min(n, count(S))` elements of `S`, in order,
and `S.take(n).count() == min(n, S.count())` (with `S.count()` representable as `int`). -/
theorem take_to_vector {σ T : Type} [Cursor σ T] (S : linq_enumerable σ) (xs : List T)
    (n : Int) (h : S.Yields xs) (h0 : 0 ≤ n) (hn : n < 2 ^ 31)
    (hlen : (xs.length : Int) < 2 ^ 31) :
    (S.take n).Yields (xs.take n.toNat) ∧
      (S.take n).to_vector = .ok (xs.take n.toNat) ∧
      (xs.take n.toNat).length = min n.toNat xs.length ∧
      ∃ c, S.count = .ok c ∧ c = xs.length ∧ (S.take n).count = .ok (min n c) := by
  have hy := take_yields h n h0 hn
  refine ⟨hy, to_vector_of_yields hy, List.length_take _ _, xs.length, count_of_yields h hlen,
    rfl, ?_⟩
  have hlen2 : (((xs.take n.toNat).length : Nat) : Int) < 2 ^ 31 := by
    rw [List.length_take]; omega
  rw [count_of_yields hy hlen2, List.length_take]
  congr 1
  omega

theorem take_to_vector_witness :
    (from_ [1, 2]).Yields [1, 2] ∧ (0 : Int) ≤ 3 ∧ (3 : Int) < 2 ^ 31 ∧
      (([1, 2] : List Nat).length : Int) < 2 ^ 31 ∧
      (((from_ [1, 2]).take 3).Yields [1, 2] ∧
        ((from_ [1, 2]).take 3).to_vector = .ok [1, 2] ∧
        ([1, 2].take (3 : Int).toNat).length = min (3 : Int).toNat [1, 2].length ∧
        ∃ c, (from_ [1, 2]).count = .ok c ∧ c = [1, 2].length ∧
          ((from_ [1, 2]).take 3).count = .ok (min 3 c)) :=
  ⟨from_yields _, by decide, by decide, by decide,
    take_to_vector _ _ 3 (from_yields _) (by decide) (by decide) (by decide)⟩

/-- C4: for every finite sequence `S` with elements `xs` and every `int` count `n ≥ 0`,
`S.skip(n)` is constructed without fault and is `S` without its first `min(n, count(S))`
elements, so `S.skip(n).count() == max(0, S.count() - n)` (with `S.count()` representable as
`int`); skipping more than `S` has gives the empty sequence. -/
theorem skip_to_vector {σ T : Type} [Cursor σ T] (S : linq_enumerable σ) (xs : List T)
    (n : Int) (h : S.Yields xs) (h0 : 0 ≤ n) (hn : n < 2 ^ 31)
    (hlen : (xs.length : Int) < 2 ^ 31) :
    ∃ W, S.skip n = .ok W ∧ W.Yields (xs.drop n.toNat) ∧
      W.to_vector = .ok (xs.drop n.toNat) ∧
      (xs.drop n.toNat).length = xs.length - min n.toNat xs.length ∧
      ∃ c, S.count = .ok c ∧ c = xs.length ∧ W.count = .ok (max 0 (c - n)) := by
  obtain ⟨W, hW, hy⟩ := skip_yields h n hn
  refine ⟨W, hW, hy, to_vector_of_yields hy, by rw [List.length_drop]; omega, xs.length,
    count_of_yields h hlen, rfl, ?_⟩
  have hlen2 : (((xs.drop n.toNat).length : Nat) : Int) < 2 ^ 31 := by
    rw [List.length_drop]; omega
  rw [count_of_yields hy hlen2, List.length_drop]
  congr 1
  omega

theorem skip_to_vector_witness :
    (from_ [1, 2]).Yields [1, 2] ∧ (0 : Int) ≤ 5 ∧ (5 : Int) < 2 ^ 31 ∧
      (([1, 2] : List Nat).length : Int) < 2 ^ 31 ∧
      ∃ W, (from_ [1, 2]).skip 5 = .ok W ∧ W.Yields [] ∧ W.to_vector = .ok [] ∧
        ([1, 2].drop (5 : Int).toNat).length = [1, 2].length - min (5 : Int).toNat [1, 2].length ∧
        ∃ c, (from_ [1, 2]).count = .ok c ∧ c = [1, 2].length ∧
          W.count = .ok (max 0 (c - 5)) :=
  ⟨from_yields _, by decide, by decide, by decide,
    skip_to_vector _ _ 5 (from_yields _) (by decide) (by decide) (by decide)⟩

/-- For all finite sequences `A` and `B` (either may be empty) whose cursor classes fit the
return type of `concat_iterator::operator*` (not: `A` yields references and `B` yields
values), `A.concat(B)` is the finite sequence of the elements of `A` followed by those of
`B`; `to_vector` of it is `to_vector(A)` followed by `to_vector(B)` and has length
`count(A) + count(B)`. -/
theorem concat_to_vector {σ₁ σ₂ T : Type} [Cursor σ₁ T] [Cursor σ₂ T]
    (A : linq_enumerable σ₁) (B : linq_enumerable σ₂) (xs ys : List T)
    (hfit : (yields_reference σ₁ && !yields_reference σ₂) = false)
    (hA : A.Yields xs) (hB : B.Yields ys) :
    A.to_vector = .ok xs ∧ B.to_vector = .ok ys ∧ (A.concat B).Yields (xs ++ ys) ∧
      (A.concat B).to_vector = .ok (xs ++ ys) ∧ (xs ++ ys).length = xs.length + ys.length :=
  ⟨to_vector_of_yields hA, to_vector_of_yields hB, concat_yields hfit hA hB,
    to_vector_of_yields (concat_yields hfit hA hB), List.length_append xs ys⟩

/-- The scenario `concat({1,2}, {3,4})` of the specification, both operands containers. -/
theorem concat_to_vector_scenario :
    (yields_reference (vector_iterator Nat) && !yields_reference (vector_iterator Nat)) = false ∧
      (from_ [1, 2]).Yields [1, 2] ∧ (from_ [3, 4]).Yields [3, 4] ∧
      ((from_ [1, 2]).to_vector = .ok [1, 2] ∧ (from_ [3, 4]).to_vector = .ok [3, 4] ∧
        ((from_ [1, 2]).concat (from_ [3, 4])).Yields [1, 2, 3, 4] ∧
        ((from_ [1, 2]).concat (from_ [3, 4])).to_vector = .ok [1, 2, 3, 4] ∧
        ([1, 2] ++ [3, 4]).length = [1, 2].length + [3, 4].length) :=
  ⟨rfl, from_yields _, from_yields _,
    concat_to_vector _ _ _ _ rfl (from_yields _) (from_yields _)⟩

/-- C5: `concat` of the container `{1, 2}` with `select(x * 10)` over the container `{3, 4}`
should give `{1, 2, 30, 40}`.  The first operand yields references and the second values, so
`concat_iterator::operator*`, declared to return `iterator_type<TIterator1>`, returns a
reference to a temporary; `to_vector` reads it after it has been destroyed. -/
theorem concat_reference_value_dangles :
    yields_reference (vector_iterator Nat) = true ∧
      yields_reference (select_iterator (vector_iterator Nat) Nat Nat) = false ∧
      (from_ [1, 2]).to_vector = .ok [1, 2] ∧
      ((from_ [3, 4]).select (fun x => x * 10)).to_vector = .ok [30, 40] ∧
      ((from_ [1, 2]).concat ((from_ [3, 4]).select (fun x => x * 10))).to_vector
        = .error .dangling_reference := by
  decide

/-- C6: `take_while(f)` over `{1, 2}` with a predicate that every element satisfies should
yield the whole sequence `{1, 2}`; the traversal instead reads the past-the-end position of
the source, because `operator++` evaluates `f(*++iterator)` without comparing against
`end` first. -/
theorem take_while_whole_sequence_faults :
    ((from_ [1, 2]).take_while (fun _ => true) >>= linq_enumerable.to_vector)
        = .error .dereference_past_end ∧
      [1, 2].takeWhile (fun _ => true) = [1, 2] := by
  decide

/-- C7: the traversal of `take_while(f)` over any non-empty container all of whose elements
satisfy `f` dereferences the source cursor at the end position of the source. -/
theorem take_while_dereferences_end {T : Type} (xs : List T) (f : T → Bool) (hne : xs ≠ [])
    (hall : ∀ x ∈ xs, f x = true) :
    ∃ W, (from_ xs).take_while f = .ok W ∧ W.to_vector = .error .dereference_past_end := by
  cases xs with
  | nil => exact absurd rfl hne
  | cons x xs =>
    have hx : (x :: xs)[0]? = some x := by simp
    have hfx : f x = true := hall x (List.mem_cons_self _ _)
    refine ⟨⟨⟨vector_begin (x :: xs), vector_end (x :: xs), f⟩,
      ⟨vector_end (x :: xs), vector_end (x :: xs), f⟩⟩, ?_, ?_⟩
    · simp [linq_enumerable.take_while, take_while_iterator.create, from_, Cursor.equals,
        vector_iterator.equals, vector_begin, vector_end, Cursor.deref,
        vector_iterator.deref, hfx, bind, Except.bind, pure, Except.pure]
    · have := take_while_loop_faults f xs [] x (xs.length + 1 + 1) [] (by omega) hall
      simpa [linq_enumerable.to_vector, Cursor.fuel, vector_begin] using this

theorem take_while_dereferences_end_witness :
    ([7] : List Nat) ≠ [] ∧ (∀ x ∈ ([7] : List Nat), (fun y => decide (y < 9)) x = true) ∧
      ∃ W, (from_ [7]).take_while (fun y => decide (y < 9)) = .ok W ∧
        W.to_vector = .error .dereference_past_end :=
  ⟨by decide, by decide,
    take_while_dereferences_end [7] (fun y => decide (y < 9)) (by decide) (by decide)⟩

/-- C8: for every finite sequence `S` with elements `xs` and every predicate `f`,
`S.skip_while(f)` is constructed without fault and is `S` without its longest prefix of
elements satisfying `f` (`List.dropWhile f xs`): later elements satisfying `f` are kept. -/
theorem skip_while_to_vector {σ T : Type} [Cursor σ T] (S : linq_enumerable σ) (xs : List T)
    (f : T → Bool) (h : S.Yields xs) :
    ∃ W, S.skip_while f = .ok W ∧ W.Yields (xs.dropWhile f) ∧
      W.to_vector = .ok (xs.dropWhile f) := by
  obtain ⟨W, hW, hy⟩ := skip_while_yields h f
  exact ⟨W, hW, hy, to_vector_of_yields hy⟩

theorem skip_while_to_vector_witness :
    (from_ [1, 2, 3, 4, 1]).Yields [1, 2, 3, 4, 1] ∧
      ∃ W, (from_ [1, 2, 3, 4, 1]).skip_while (fun x => decide (x < 3)) = .ok W ∧
        W.Yields [3, 4, 1] ∧ W.to_vector = .ok [3, 4, 1] :=
  ⟨from_yields _, skip_while_to_vector _ _ (fun x => decide (x < 3)) (from_yields _)⟩

/-! ## The eager set operators -/

theorem distinct_yields {K σ T : Type} [Cursor σ T] [LinearOrder T] (El : K → Type)
    {S : linq_enumerable σ} {xs : List T} (h : S.Yields xs) :
    S.distinct El = .ok (from_values El (keep_new [] xs)) := by
  have := push_new_loop_spec S._end xs S._begin (Cursor.fuel S._begin + 1) [] [] [] h.1
    (Nat.lt_succ_of_le h.1.length_le) List.sorted_nil (fun _ => Iff.rfl)
  simp [linq_enumerable.distinct, this, bind, Except.bind, pure, Except.pure]

theorem except_with_yields {K σ σ₂ T : Type} [Cursor σ T] [Cursor σ₂ T] [LinearOrder T]
    (El : K → Type) {S : linq_enumerable σ} {O : linq_enumerable σ₂} {xs os : List T}
    (h : S.Yields xs) (hO : O.Yields os) :
    S.except_with El O = .ok (from_values El (keep_new os xs)) := by
  obtain ⟨set, hset, hsorted, hmem⟩ := set_of_range_spec O._end os O._begin
    (Cursor.fuel O._begin + 1) [] hO.1 (Nat.lt_succ_of_le hO.1.length_le) List.sorted_nil
  have := push_new_loop_spec S._end xs S._begin (Cursor.fuel S._begin + 1) set os [] h.1
    (Nat.lt_succ_of_le h.1.length_le) hsorted (fun z => by simpa using hmem z)
  simp [linq_enumerable.except_with, hset, this, bind, Except.bind, pure, Except.pure]

section set_claims

variable {K : Type} [DecidableEq K] {σ T : Type} [Cursor σ T] [LinearOrder T]

/-- C9: for every finite sequence `S` with elements `xs` of a totally ordered type,
`S.distinct()` returns a sequence `r` without two equal elements, containing exactly the
values that occur in `xs`, listed in the order of their first occurrence in `xs`. -/
theorem distinct_to_vector (El : K → Type) [∀ k, Cursor (El k) T] (S : linq_enumerable σ)
    (xs : List T) (h : S.Yields xs) :
    ∃ D r, S.distinct El = .ok D ∧ D.Yields r ∧ D.to_vector = .ok r ∧ r.Nodup ∧
      (∀ x, x ∈ r ↔ x ∈ xs) ∧ r.Pairwise (fun a b => xs.indexOf a < xs.indexOf b) := by
  have hy := from_values_yields El (keep_new [] xs)
  refine ⟨_, keep_new [] xs, distinct_yields El h, hy, to_vector_of_yields hy,
    nodup_keep_new xs [], ?_, pairwise_keep_new xs []⟩
  intro x
  simp [mem_keep_new]

theorem distinct_to_vector_witness :
    (from_ [1, 1, 2, 3, 3]).Yields [1, 1, 2, 3, 3] ∧
      ∃ D r, (from_ [1, 1, 2, 3, 3]).distinct (no_kinds Nat) = .ok D ∧ D.Yields r ∧
        D.to_vector = .ok r ∧ r.Nodup ∧ (∀ x, x ∈ r ↔ x ∈ [1, 1, 2, 3, 3]) ∧
        r.Pairwise (fun a b => [1, 1, 2, 3, 3].indexOf a < [1, 1, 2, 3, 3].indexOf b) :=
  ⟨from_yields _, distinct_to_vector (no_kinds Nat) _ _ (from_yields _)⟩

/-- The scenario `distinct()` over `{1,1,2,3,3}` of the specification. -/
theorem distinct_scenario :
    ((from_ [1, 1, 2, 3, 3]).distinct (no_kinds Nat) >>= linq_enumerable.to_vector)
      = .ok [1, 2, 3] := by
  decide

/-- C10: for all finite sequences `S` and `O` with elements `xs` and `os` of a totally
ordered type, `S.except_with(O)` returns the sequence `r` of the values that occur in `xs`
and not in `os`, each once, in the order of their first occurrence in `xs`; it is the result
`d` of `S.distinct()` with the members of `os` filtered out. -/
theorem except_with_to_vector {σ₂ : Type} [Cursor σ₂ T] (El : K → Type)
    [∀ k, Cursor (El k) T] (S : linq_enumerable σ) (O : linq_enumerable σ₂)
    (xs os : List T) (h : S.Yields xs) (hO : O.Yields os) :
    ∃ E r D d, S.except_with El O = .ok E ∧ E.to_vector = .ok r ∧
      S.distinct El = .ok D ∧ D.to_vector = .ok d ∧
      r = d.filter (fun z => decide (z ∉ os)) ∧ r.Nodup ∧
      (∀ x, x ∈ r ↔ x ∈ xs ∧ x ∉ os) ∧
      r.Pairwise (fun a b => xs.indexOf a < xs.indexOf b) := by
  refine ⟨_, keep_new os xs, _, keep_new [] xs, except_with_yields El h hO,
    to_vector_of_yields (from_values_yields El _), distinct_yields El h,
    to_vector_of_yields (from_values_yields El _), ?_, nodup_keep_new xs os,
    fun x => mem_keep_new x xs os, pairwise_keep_new xs os⟩
  exact keep_new_eq_filter xs [] os os (fun z => by simp)

theorem except_with_to_vector_witness :
    (from_ [3, 1, 2, 3, 1, 5, 0]).Yields [3, 1, 2, 3, 1, 5, 0] ∧
      (from_ [5, 2, 2, 7]).Yields [5, 2, 2, 7] ∧
      ∃ E r D d,
        (from_ [3, 1, 2, 3, 1, 5, 0]).except_with (no_kinds Nat) (from_ [5, 2, 2, 7]) = .ok E ∧
        E.to_vector = .ok r ∧
        (from_ [3, 1, 2, 3, 1, 5, 0]).distinct (no_kinds Nat) = .ok D ∧ D.to_vector = .ok d ∧
        r = d.filter (fun z => decide (z ∉ [5, 2, 2, 7])) ∧ r.Nodup ∧
        (∀ x, x ∈ r ↔ x ∈ [3, 1, 2, 3, 1, 5, 0] ∧ x ∉ [5, 2, 2, 7]) ∧
        r.Pairwise (fun a b =>
          [3, 1, 2, 3, 1, 5, 0].indexOf a < [3, 1, 2, 3, 1, 5, 0].indexOf b) :=
  ⟨from_yields _, from_yields _,
    except_with_to_vector (no_kinds Nat) _ _ _ _ (from_yields _) (from_yields _)⟩

end set_claims

/-! ## `intersect_with` -/

theorem intersect_loop_spec {σ T : Type} [Cursor σ T] [LinearOrder T] (e : σ) (os : List T) :
    ∀ (xs : List T) (c : σ) (n : Nat) (seti set seen acc : List T), Reaches e c xs →
      xs.length < n → seti.Sorted (· < ·) → set.Sorted (· < ·) →
      (∀ z, z ∈ seti ↔ z ∈ seen) → (∀ z, z ∈ set ↔ z ∈ os ∨ z ∈ seen) →
      intersect_loop e n c seti set acc
        = .ok (acc ++ (keep_new seen xs).filter (fun z => decide (z ∈ os)))
  | [], c, n, seti, set, seen, acc, h, hn, _, _, _, _ => by
    obtain ⟨m, rfl⟩ : ∃ m, n = m + 1 := ⟨n - 1, by simp at hn; omega⟩
    simp [intersect_loop, (Reaches.nil_iff e c).1 h, keep_new]
  | x :: xs, c, n, seti, set, seen, acc, h, hn, hsi, hs, hmi, hm => by
    obtain ⟨m, rfl⟩ : ∃ m, n = m + 1 := ⟨n - 1, by simp at hn; omega⟩
    obtain ⟨h1, h2, _, c', h4, h5⟩ := (Reaches.cons_iff e c x xs).1 h
    obtain ⟨i1, i2, i3⟩ := set_insert_spec x seti hsi
    obtain ⟨j1, j2, j3⟩ := set_insert_spec x set hs
    by_cases hx : x ∈ seen
    · have hflag : (set_insert x seti).2 = false := by
        cases hq : (set_insert x seti).2 with
        | false => rfl
        | true => exact absurd ((hmi x).2 hx) (i3.1 hq)
      have hmi2 : ∀ z, z ∈ (set_insert x seti).1 ↔ z ∈ seen := by
        intro z
        rw [i2 z, hmi z]
        constructor
        · rintro (rfl | hz)
          · exact hx
          · exact hz
        · exact Or.inr
      have ih := intersect_loop_spec e os xs c' m (set_insert x seti).1 set seen acc h5
        (by simpa using hn) i1 hs hmi2 hm
      simp [intersect_loop, h1, h2, h4, hflag, ih, keep_new, hx, bind, Except.bind]
    · have hflag : (set_insert x seti).2 = true :=
        i3.2 (fun hin => hx ((hmi x).1 hin))
      have hmi2 : ∀ z, z ∈ (set_insert x seti).1 ↔ z ∈ x :: seen := by
        intro z
        rw [i2 z, hmi z, List.mem_cons]
      have hm2 : ∀ z, z ∈ (set_insert x set).1 ↔ z ∈ os ∨ z ∈ x :: seen := by
        intro z
        rw [j2 z, hm z, List.mem_cons]
        tauto
      by_cases hxo : x ∈ os
      · have hflag2 : (set_insert x set).2 = false := by
          cases hq : (set_insert x set).2 with
          | false => rfl
          | true => exact absurd ((hm x).2 (Or.inl hxo)) (j3.1 hq)
        have ih := intersect_loop_spec e os xs c' m (set_insert x seti).1
          (set_insert x set).1 (x :: seen) (acc ++ [x]) h5 (by simpa using hn) i1 j1 hmi2 hm2
        simp [intersect_loop, h1, h2, h4, hflag, hflag2, ih, keep_new, hx, hxo, bind,
          Except.bind, pure, Except.pure]
      · have hflag2 : (set_insert x set).2 = true :=
          j3.2 (fun hin => ((hm x).1 hin).elim hxo hx)
        have ih := intersect_loop_spec e os xs c' m (set_insert x seti).1
          (set_insert x set).1 (x :: seen) acc h5 (by simpa using hn) i1 j1 hmi2 hm2
        simp [intersect_loop, h1, h2, h4, hflag, hflag2, ih, keep_new, hx, hxo, bind,
          Except.bind, pure, Except.pure]

theorem intersect_with_yields {K σ σ₂ T : Type} [Cursor σ T] [Cursor σ₂ T] [LinearOrder T]
    (El : K → Type) {S : linq_enumerable σ} {O : linq_enumerable σ₂} {xs os : List T}
    (h : S.Yields xs) (hO : O.Yields os) :
    S.intersect_with El O
      = .ok (from_values El ((keep_new [] xs).filter (fun z => decide (z ∈ os)))) := by
  obtain ⟨set, hset, hsorted, hmem⟩ := set_of_range_spec O._end os O._begin
    (Cursor.fuel O._begin + 1) [] hO.1 (Nat.lt_succ_of_le hO.1.length_le) List.sorted_nil
  have := intersect_loop_spec S._end os xs S._begin (Cursor.fuel S._begin + 1) [] set [] []
    h.1 (Nat.lt_succ_of_le h.1.length_le) List.sorted_nil hsorted (fun _ => Iff.rfl)
    (fun z => by simpa using hmem z)
  simp [linq_enumerable.intersect_with, hset, this, bind, Except.bind, pure, Except.pure]

section intersect_claim

variable {K : Type} [DecidableEq K] {σ T : Type} [Cursor σ T] [LinearOrder T]

/-- C11: for all finite sequences `S` and `O` with elements `xs` and `os` of a totally
ordered type, `S.intersect_with(O)` returns the sequence `r` of the values that occur in
both `xs` and `os`, each once, in the order of their first occurrence in `xs`; it is the
result `d` of `S.distinct()` filtered to the members of `os`, so a value absent from `os` is
never emitted. -/
theorem intersect_with_to_vector {σ₂ : Type} [Cursor σ₂ T] (El : K → Type)
    [∀ k, Cursor (El k) T] (S : linq_enumerable σ) (O : linq_enumerable σ₂)
    (xs os : List T) (h : S.Yields xs) (hO : O.Yields os) :
    ∃ I r D d, S.intersect_with El O = .ok I ∧ I.to_vector = .ok r ∧
      S.distinct El = .ok D ∧ D.to_vector = .ok d ∧
      r = d.filter (fun z => decide (z ∈ os)) ∧ r.Nodup ∧
      (∀ x, x ∈ r ↔ x ∈ xs ∧ x ∈ os) ∧
      r.Pairwise (fun a b => xs.indexOf a < xs.indexOf b) := by
  refine ⟨_, (keep_new [] xs).filter (fun z => decide (z ∈ os)), _, keep_new [] xs,
    intersect_with_yields El h hO, to_vector_of_yields (from_values_yields El _),
    distinct_yields El h, to_vector_of_yields (from_values_yields El _), rfl,
    (nodup_keep_new xs []).filter _, ?_, (pairwise_keep_new xs []).filter _⟩
  intro x
  simp [List.mem_filter, mem_keep_new]

theorem intersect_with_to_vector_witness :
    (from_ [9, 3, 1, 9, 3, 5, 9]).Yields [9, 3, 1, 9, 3, 5, 9] ∧
      (from_ [5, 3, 3, 7]).Yields [5, 3, 3, 7] ∧
      ∃ I r D d,
        (from_ [9, 3, 1, 9, 3, 5, 9]).intersect_with (no_kinds Nat) (from_ [5, 3, 3, 7])
          = .ok I ∧
        I.to_vector = .ok r ∧
        (from_ [9, 3, 1, 9, 3, 5, 9]).distinct (no_kinds Nat) = .ok D ∧ D.to_vector = .ok d ∧
        r = d.filter (fun z => decide (z ∈ [5, 3, 3, 7])) ∧ r.Nodup ∧
        (∀ x, x ∈ r ↔ x ∈ [9, 3, 1, 9, 3, 5, 9] ∧ x ∈ [5, 3, 3, 7]) ∧
        r.Pairwise (fun a b =>
          [9, 3, 1, 9, 3, 5, 9].indexOf a < [9, 3, 1, 9, 3, 5, 9].indexOf b) :=
  ⟨from_yields _, from_yields _,
    intersect_with_to_vector (no_kinds Nat) _ _ _ _ (from_yields _) (from_yields _)⟩

end intersect_claim

/-! ## `sequence_equal` -/

theorem sequence_equal_loop_spec {σ σ₂ T : Type} [Cursor σ T] [Cursor σ₂ T] [DecidableEq T]
    (xe : σ) (ye : σ₂) :
    ∀ (xs ys : List T) (x : σ) (y : σ₂) (n : Nat), Reaches xe x xs → Reaches ye y ys →
      xs.length < n → sequence_equal_loop xe ye n x y = .ok (decide (xs = ys))
  | [], ys, x, y, n, hx, hy, hn => by
    obtain ⟨m, rfl⟩ : ∃ m, n = m + 1 := ⟨n - 1, by simp at hn; omega⟩
    have hxe : Cursor.equals x xe = true := hx
    cases ys with
    | nil =>
      have hye : Cursor.equals y ye = true := hy
      simp [sequence_equal_loop, hxe, hye]
    | cons b ys =>
      have hye := ((Reaches.cons_iff ye y b ys).1 hy).1
      simp [sequence_equal_loop, hxe, hye]
  | a :: xs, [], x, y, n, hx, hy, hn => by
    obtain ⟨m, rfl⟩ : ∃ m, n = m + 1 := ⟨n - 1, by simp at hn; omega⟩
    have hxe := ((Reaches.cons_iff xe x a xs).1 hx).1
    have hye : Cursor.equals y ye = true := hy
    simp [sequence_equal_loop, hxe, hye]
  | a :: xs, b :: ys, x, y, n, hx, hy, hn => by
    obtain ⟨m, rfl⟩ : ∃ m, n = m + 1 := ⟨n - 1, by simp at hn; omega⟩
    obtain ⟨hx1, hx2, _, x1, hx4, hx5⟩ := (Reaches.cons_iff xe x a xs).1 hx
    obtain ⟨hy1, hy2, _, y1, hy4, hy5⟩ := (Reaches.cons_iff ye y b ys).1 hy
    have ih := sequence_equal_loop_spec xe ye xs ys x1 y1 m hx5 hy5 (by simpa using hn)
    by_cases hab : a = b
    · subst hab
      simp [sequence_equal_loop, hx1, hy1, hx2, hy2, hx4, hy4, ih, bind, Except.bind]
    · simp [sequence_equal_loop, hx1, hy1, hx2, hy2, hx4, hy4, hab, bind, Except.bind]

/-- C12: for all finite sequences `A` and `B` with elements `xs` and `ys`,
`A.sequence_equal(B)` returns `true` exactly when `xs = ys` (same length and equal elements
at every position, that is `to_vector(A) == to_vector(B)`), and `false` otherwise. -/
theorem sequence_equal_iff {σ σ₂ T : Type} [Cursor σ T] [Cursor σ₂ T] [DecidableEq T]
    (A : linq_enumerable σ) (B : linq_enumerable σ₂) (xs ys : List T)
    (hA : A.Yields xs) (hB : B.Yields ys) :
    A.to_vector = .ok xs ∧ B.to_vector = .ok ys ∧
      A.sequence_equal B = .ok (decide (xs = ys)) ∧
      (A.sequence_equal B = .ok true ↔ xs = ys) := by
  have hs : A.sequence_equal B = .ok (decide (xs = ys)) :=
    sequence_equal_loop_spec A._end B._end xs ys A._begin B._begin (Cursor.fuel A._begin + 1)
      hA.1 hB.1 (Nat.lt_succ_of_le hA.1.length_le)
  refine ⟨to_vector_of_yields hA, to_vector_of_yields hB, hs, ?_⟩
  rw [hs]
  simp

theorem sequence_equal_iff_witness :
    (from_ [1, 2]).Yields [1, 2] ∧ (from_ [1, 2, 3]).Yields [1, 2, 3] ∧
      ((from_ [1, 2]).to_vector = .ok [1, 2] ∧ (from_ [1, 2, 3]).to_vector = .ok [1, 2, 3] ∧
        (from_ [1, 2]).sequence_equal (from_ [1, 2, 3]) = .ok false ∧
        ((from_ [1, 2]).sequence_equal (from_ [1, 2, 3]) = .ok true ↔ [1, 2] = [1, 2, 3])) :=
  ⟨from_yields _, from_yields _, sequence_equal_iff _ _ _ _ (from_yields _) (from_yields _)⟩

/-! ## `element_at` -/

theorem element_at_loop_spec {σ T : Type} [Cursor σ T] (e : σ) (index : Int)
    (hi : index < 2 ^ 31) :
    ∀ (xs : List T) (c : σ) (n : Nat) (k : Int), Reaches e c xs → xs.length < n → 0 ≤ k →
      k ≤ index → element_at_loop e index n c k = .ok xs[(index - k).toNat]?
  | [], c, n, k, h, hn, _, _ => by
    obtain ⟨m, rfl⟩ : ∃ m, n = m + 1 := ⟨n - 1, by simp at hn; omega⟩
    simp [element_at_loop, (Reaches.nil_iff e c).1 h]
  | x :: xs, c, n, k, h, hn, hk0, hk => by
    obtain ⟨m, rfl⟩ : ∃ m, n = m + 1 := ⟨n - 1, by simp at hn; omega⟩
    obtain ⟨h1, h2, _, c', h4, h5⟩ := (Reaches.cons_iff e c x xs).1 h
    by_cases hq : k = index
    · subst hq
      simp [element_at_loop, h1, h2, bind, Except.bind, pure, Except.pure]
    · have hw : int_wrap (k + 1) = k + 1 := int_wrap_of_range (by omega) (by omega)
      have ih := element_at_loop_spec e index hi xs c' m (k + 1) h5 (by simpa using hn)
        (by omega) (by omega)
      have hidx : (index - k).toNat = (index - (k + 1)).toNat + 1 := by omega
      simp only [element_at_loop, h1, hq, h4, hw, ih, bind, Except.bind]
      rw [hidx, List.getElem?_cons_succ]
      simp

/-- C13: for every finite sequence `S` with elements `xs` and every `int` index `i`,
`S.element_at(i)` throws the out-of-range exception exactly when `i < 0` or
`i ≥ count(S)`, and otherwise returns the element at zero-based position `i`. -/
theorem element_at_spec {σ T : Type} [Cursor σ T] (S : linq_enumerable σ) (xs : List T)
    (i : Int) (h : S.Yields xs) (hi : i < 2 ^ 31) :
    (S.element_at i = .error index_out_of_range ↔ (i < 0 ∨ (xs.length : Int) ≤ i)) ∧
      (∀ x, S.element_at i = .ok x ↔ (0 ≤ i ∧ xs[i.toNat]? = some x)) ∧
      index_out_of_range = Fault.linq_exception ("Argument out of range: index.") := by
  by_cases h0 : 0 ≤ i
  · have hl := element_at_loop_spec S._end i hi xs S._begin (Cursor.fuel S._begin + 1) 0 h.1
      (Nat.lt_succ_of_le h.1.length_le) (le_refl _) h0
    have he : S.element_at i = match xs[i.toNat]? with
        | some x => .ok x
        | none => .error index_out_of_range := by
      simp only [linq_enumerable.element_at, ge_iff_le, h0, if_true, hl, bind, Except.bind,
        sub_zero]
      cases xs[i.toNat]? <;> rfl
    refine ⟨?_, ?_, rfl⟩
    · rw [he]
      cases hget : xs[i.toNat]? with
      | none =>
        have := List.getElem?_eq_none_iff.1 hget
        simp only [true_iff]
        right; omega
      | some x =>
        have hlt : i.toNat < xs.length := by
          by_contra hc
          rw [List.getElem?_eq_none_iff.2 (by omega)] at hget
          cases hget
        simp only [reduceCtorEq, false_iff, not_or, not_lt, not_le]
        exact ⟨h0, by omega⟩
    · intro x
      rw [he]
      cases hget : xs[i.toNat]? with
      | none => simp
      | some y => simp [h0]
  · have he : S.element_at i = .error index_out_of_range := by
      simp [linq_enumerable.element_at, h0]
    refine ⟨?_, ?_, rfl⟩
    · rw [he]
      simp only [true_iff]
      left; omega
    · intro x
      rw [he]
      simp [h0]

theorem element_at_spec_witness :
    (from_ [1, 2, 3]).Yields [1, 2, 3] ∧ (5 : Int) < 2 ^ 31 ∧
      (((from_ [1, 2, 3]).element_at 5 = .error index_out_of_range ↔
          ((5 : Int) < 0 ∨ (([1, 2, 3] : List Nat).length : Int) ≤ 5)) ∧
        (∀ x, (from_ [1, 2, 3]).element_at 5 = .ok x ↔
          ((0 : Int) ≤ 5 ∧ [1, 2, 3][(5 : Int).toNat]? = some x)) ∧
        index_out_of_range = Fault.linq_exception ("Argument out of range: index.")) :=
  ⟨from_yields _, by decide, element_at_spec _ _ 5 (from_yields _) (by decide)⟩

/-! ## `single` and `single_or_default` -/

section single

variable {K : Type} [DecidableEq K] {El : K → Type} {T : Type} [∀ k, Cursor (El k) T]

theorem from_value_yields (El : K → Type) [∀ k, Cursor (El k) T] (v : T) :
    (from_value El v).Yields [v] :=
  from_values_yields El [v]

/-- C14: for every finite sequence `S` with elements `xs` and default value `v`,
`S.single_or_default(v)` throws exactly when `S` has more than one element; on the empty
sequence it returns the one-element sequence `{v}` and on a one-element sequence it returns
that sequence.  `single()` does the same, except that it throws on the empty sequence. -/
theorem single_or_default_spec (k : Option K) (S : linq_enumerable (boxed_iterator El T k))
    (xs : List T) (v : T) (h : S.Yields xs) :
    (S.single_or_default El k v =
        if xs.length = 0 then .ok (from_value El v)
        else if xs.length = 1 then .ok (linq.create El T k S)
        else .error not_exactly_one) ∧
      ((∃ err, S.single_or_default El k v = .error err) ↔ 1 < xs.length) ∧
      (from_value El v).Yields [v] ∧ (linq.create El T k S).Yields xs ∧
      (S.single =
        if xs.length = 0 then .error empty_collection
        else if xs.length = 1 then .ok S
        else .error not_exactly_one) ∧
      ((∃ err, S.single = .error err) ↔ xs.length ≠ 1) := by
  have hsd : S.single_or_default El k v =
      if xs.length = 0 then .ok (from_value El v)
      else if xs.length = 1 then .ok (linq.create El T k S)
      else .error not_exactly_one := by
    match xs, h with
    | [], h =>
      have hq : Cursor.equals S._begin S._end = true := h.1
      simp [linq_enumerable.single_or_default, hq, pure, Except.pure]
    | [x], h =>
      obtain ⟨h1, _, _, c, h4, h5⟩ := (Reaches.cons_iff _ _ x []).1 h.1
      have hq : Cursor.equals c S._end = true := h5
      simp [linq_enumerable.single_or_default, h1, h4, hq, bind, Except.bind, pure,
        Except.pure]
    | x :: y :: ys, h =>
      obtain ⟨h1, _, _, c, h4, h5⟩ := (Reaches.cons_iff _ _ x (y :: ys)).1 h.1
      have hq := ((Reaches.cons_iff _ _ y ys).1 h5).1
      simp [linq_enumerable.single_or_default, h1, h4, hq, bind, Except.bind]
  have hs : S.single =
      if xs.length = 0 then .error empty_collection
      else if xs.length = 1 then .ok S
      else .error not_exactly_one := by
    match xs, h with
    | [], h =>
      have hq : Cursor.equals S._begin S._end = true := h.1
      simp [linq_enumerable.single, hq]
    | [x], h =>
      obtain ⟨h1, _, _, c, h4, h5⟩ := (Reaches.cons_iff _ _ x []).1 h.1
      have hq : Cursor.equals c S._end = true := h5
      simp [linq_enumerable.single, h1, h4, hq, bind, Except.bind, pure, Except.pure]
    | x :: y :: ys, h =>
      obtain ⟨h1, _, _, c, h4, h5⟩ := (Reaches.cons_iff _ _ x (y :: ys)).1 h.1
      have hq := ((Reaches.cons_iff _ _ y ys).1 h5).1
      simp [linq_enumerable.single, h1, h4, hq, bind, Except.bind]
  refine ⟨hsd, ?_, from_value_yields El v, linq_create_yields k h, hs, ?_⟩
  · rw [hsd]
    by_cases h0 : xs.length = 0
    · simp [h0]
    · by_cases h1 : xs.length = 1
      · simp [h1]
      · simp only [h0, h1, if_false]
        constructor
        · intro _; omega
        · intro _; exact ⟨_, rfl⟩
  · rw [hs]
    by_cases h0 : xs.length = 0
    · simp [h0]
    · by_cases h1 : xs.length = 1
      · simp [h1]
      · simp only [h0, h1, if_false]
        constructor
        · intro _; exact h1
        · intro _; exact ⟨_, rfl⟩

theorem from_boxable_yields {T : Type} (xs : List T) : (from_boxable xs).Yields xs :=
  from_yields xs

theorem single_or_default_spec_witness :
    (from_boxable [1, 2]).Yields [1, 2] ∧
      (((from_boxable [1, 2]).single_or_default (vector_kinds Nat) (some ()) 0 =
          if [1, 2].length = 0 then .ok (from_value (vector_kinds Nat) 0)
          else if [1, 2].length = 1 then
            .ok (linq.create (vector_kinds Nat) Nat (some ()) (from_boxable [1, 2]))
          else .error not_exactly_one) ∧
        ((∃ err, (from_boxable [1, 2]).single_or_default (vector_kinds Nat) (some ()) 0
            = .error err) ↔ 1 < [1, 2].length) ∧
        (from_value (vector_kinds Nat) 0).Yields [0] ∧
        (linq.create (vector_kinds Nat) Nat (some ()) (from_boxable [1, 2])).Yields [1, 2] ∧
        ((from_boxable [1, 2]).single =
          if [1, 2].length = 0 then .error empty_collection
          else if [1, 2].length = 1 then .ok (from_boxable [1, 2])
          else .error not_exactly_one) ∧
        ((∃ err, (from_boxable [1, 2]).single = .error err) ↔ [1, 2].length ≠ 1)) :=
  ⟨from_boxable_yields _,
    single_or_default_spec (some ()) (from_boxable [1, 2]) [1, 2] 0 (from_boxable_yields _)⟩

end single

/-! ## `first` and `last` -/

section first_last

variable {σ T : Type} [Cursor σ T]

theorem last_loop_spec (e : σ) :
    ∀ (xs : List T) (x : T) (c : σ) (n : Nat) (result : T), Reaches e c (x :: xs) →
      xs.length < n → last_loop e n c result = .ok (xs.getLast?.getD result)
  | [], x, c, n, result, h, hn => by
    obtain ⟨m, rfl⟩ : ∃ m, n = m + 1 := ⟨n - 1, by simp at hn; omega⟩
    obtain ⟨_, _, _, c', h4, h5⟩ := (Reaches.cons_iff e c x []).1 h
    have hq : Cursor.equals c' e = true := h5
    simp [last_loop, h4, hq, bind, Except.bind]
  | y :: ys, x, c, n, result, h, hn => by
    obtain ⟨m, rfl⟩ : ∃ m, n = m + 1 := ⟨n - 1, by simp at hn; omega⟩
    obtain ⟨_, _, _, c', h4, h5⟩ := (Reaches.cons_iff e c x (y :: ys)).1 h
    obtain ⟨hq, hy, _, _⟩ := (Reaches.cons_iff e c' y ys).1 h5
    have ih := last_loop_spec e ys y c' m y h5 (by simpa using hn)
    simp [last_loop, h4, hq, hy, ih, bind, Except.bind, List.getLast?_cons]

theorem last_or_default_loop_spec (e : σ) :
    ∀ (xs : List T) (c : σ) (n : Nat) (result : T), Reaches e c xs → xs.length < n →
      last_or_default_loop e n c result = .ok (xs.getLast?.getD result)
  | [], c, n, result, h, hn => by
    obtain ⟨m, rfl⟩ : ∃ m, n = m + 1 := ⟨n - 1, by simp at hn; omega⟩
    simp [last_or_default_loop, (Reaches.nil_iff e c).1 h]
  | x :: xs, c, n, result, h, hn => by
    obtain ⟨m, rfl⟩ : ∃ m, n = m + 1 := ⟨n - 1, by simp at hn; omega⟩
    obtain ⟨h1, h2, _, c', h4, h5⟩ := (Reaches.cons_iff e c x xs).1 h
    have ih := last_or_default_loop_spec e xs c' m x h5 (by simpa using hn)
    simp [last_or_default_loop, h1, h2, h4, ih, bind, Except.bind, List.getLast?_cons]

/-- C15: for every finite sequence `S` with elements `xs`: `first()` and `last()` throw
exactly when `S` is empty and otherwise return the first and the last element;
`first_or_default(v)` and `last_or_default(v)` never fail, return `v` when `S` is empty and
otherwise the same element as `first()` and `last()`. -/
theorem first_last_spec (S : linq_enumerable σ) (xs : List T) (v : T) (h : S.Yields xs) :
    (S.first = match xs.head? with
        | some x => .ok x
        | none => .error empty_collection) ∧
      (S.last = match xs.getLast? with
        | some x => .ok x
        | none => .error empty_collection) ∧
      ((∃ err, S.first = .error err) ↔ xs = []) ∧ ((∃ err, S.last = .error err) ↔ xs = []) ∧
      S.first_or_default v = .ok (xs.head?.getD v) ∧
      S.last_or_default v = .ok (xs.getLast?.getD v) ∧
      empty_collection
        = Fault.linq_exception ("Failed to get a value from an empty collection.") := by
  have hld := last_or_default_loop_spec S._end xs S._begin (Cursor.fuel S._begin + 1) v h.1
    (Nat.lt_succ_of_le h.1.length_le)
  match xs, h, hld with
  | [], h, hld =>
    have hq : Cursor.equals S._begin S._end = true := h.1
    refine ⟨?_, ?_, ?_, ?_, ?_, hld, rfl⟩ <;>
      simp [linq_enumerable.first, linq_enumerable.last, linq_enumerable.first_or_default,
        linq_enumerable.empty, hq]
  | x :: xs, h, hld =>
    obtain ⟨h1, h2, _, _⟩ := (Reaches.cons_iff _ _ x xs).1 h.1
    have hl := last_loop_spec S._end xs x S._begin (Cursor.fuel S._begin + 1) x h.1
      (Nat.lt_succ_of_le (Nat.le_of_succ_le h.1.length_le))
    have hfirst : S.first = .ok x := by
      simp [linq_enumerable.first, linq_enumerable.empty, h1, h2]
    have hlast : S.last = .ok (xs.getLast?.getD x) := by
      simp [linq_enumerable.last, linq_enumerable.empty, h1, h2, hl, bind, Except.bind]
    refine ⟨by simpa using hfirst, ?_, ?_, ?_, ?_, hld, rfl⟩
    · rw [hlast, List.getLast?_cons]
    · rw [hfirst]; simp
    · rw [hlast]; simp
    · simp [linq_enumerable.first_or_default, linq_enumerable.empty, h1, h2]

theorem first_last_spec_witness :
    (from_ [4, 5, 6]).Yields [4, 5, 6] ∧
      (((from_ [4, 5, 6]).first = .ok 4) ∧ ((from_ [4, 5, 6]).last = .ok 6) ∧
        ((∃ err, (from_ [4, 5, 6]).first = .error err) ↔ [4, 5, 6] = []) ∧
        ((∃ err, (from_ [4, 5, 6]).last = .error err) ↔ [4, 5, 6] = []) ∧
        (from_ [4, 5, 6]).first_or_default 0 = .ok 4 ∧
        (from_ [4, 5, 6]).last_or_default 0 = .ok 6 ∧
        empty_collection
          = Fault.linq_exception ("Failed to get a value from an empty collection.")) :=
  ⟨from_yields _, first_last_spec _ _ 0 (from_yields _)⟩

end first_last

/-! ## `aggregate` -/

section aggregate

variable {σ T : Type} [Cursor σ T]

theorem aggregate_loop_spec (e : σ) (f : T → T → T) :
    ∀ (xs : List T) (x : T) (c : σ) (n : Nat) (result : T), Reaches e c (x :: xs) →
      xs.length < n → aggregate_loop e f n c result = .ok (xs.foldl f result)
  | [], x, c, n, result, h, hn => by
    obtain ⟨m, rfl⟩ : ∃ m, n = m + 1 := ⟨n - 1, by simp at hn; omega⟩
    obtain ⟨_, _, _, c', h4, h5⟩ := (Reaches.cons_iff e c x []).1 h
    have hq : Cursor.equals c' e = true := h5
    simp [aggregate_loop, h4, hq, bind, Except.bind]
  | y :: ys, x, c, n, result, h, hn => by
    obtain ⟨m, rfl⟩ : ∃ m, n = m + 1 := ⟨n - 1, by simp at hn; omega⟩
    obtain ⟨_, _, _, c', h4, h5⟩ := (Reaches.cons_iff e c x (y :: ys)).1 h
    obtain ⟨hq, hy, _, _⟩ := (Reaches.cons_iff e c' y ys).1 h5
    have ih := aggregate_loop_spec e f ys y c' m (f result y) h5 (by simpa using hn)
    simp [aggregate_loop, h4, hq, hy, ih, bind, Except.bind]

theorem aggregate_init_loop_spec {R : Type} (e : σ) (f : R → T → R) :
    ∀ (xs : List T) (c : σ) (n : Nat) (result : R), Reaches e c xs → xs.length < n →
      aggregate_init_loop e f n c result = .ok (xs.foldl f result)
  | [], c, n, result, h, hn => by
    obtain ⟨m, rfl⟩ : ∃ m, n = m + 1 := ⟨n - 1, by simp at hn; omega⟩
    simp [aggregate_init_loop, (Reaches.nil_iff e c).1 h]
  | x :: xs, c, n, result, h, hn => by
    obtain ⟨m, rfl⟩ : ∃ m, n = m + 1 := ⟨n - 1, by simp at hn; omega⟩
    obtain ⟨h1, h2, _, c', h4, h5⟩ := (Reaches.cons_iff e c x xs).1 h
    have ih := aggregate_init_loop_spec e f xs c' m (f result x) h5 (by simpa using hn)
    simp [aggregate_init_loop, h1, h2, h4, ih, bind, Except.bind]

theorem aggregate_of_yields {S : linq_enumerable σ} {xs : List T} (h : S.Yields xs)
    (f : T → T → T) :
    S.aggregate f = match xs.head? with
      | some x => .ok (xs.tail.foldl f x)
      | none => .error empty_collection := by
  match xs, h with
  | [], h =>
    have hq : Cursor.equals S._begin S._end = true := h.1
    simp [linq_enumerable.aggregate, hq]
  | x :: xs, h =>
    obtain ⟨h1, h2, _, _⟩ := (Reaches.cons_iff _ _ x xs).1 h.1
    have hl := aggregate_loop_spec S._end f xs x S._begin (Cursor.fuel S._begin + 1) x h.1
      (Nat.lt_succ_of_le (Nat.le_of_succ_le h.1.length_le))
    simp [linq_enumerable.aggregate, h1, h2, hl, bind, Except.bind]

theorem aggregate_init_of_yields {R : Type} {S : linq_enumerable σ} {xs : List T}
    (h : S.Yields xs) (init : R) (f : R → T → R) :
    S.aggregate_init init f = .ok (xs.foldl f init) :=
  aggregate_init_loop_spec S._end f xs S._begin (Cursor.fuel S._begin + 1) init h.1
    (Nat.lt_succ_of_le h.1.length_le)

/-- C16: for every finite sequence `S` with elements `xs`: the unseeded `aggregate(f)`
throws exactly when `S` is empty and on `x0, x1, ..., xk` returns the left fold
`f(...f(f(x0, x1), x2)..., xk)`; the seeded `aggregate(seed, g)` never fails and returns the
left fold of `g` over `xs` from `seed`, which is `seed` when `S` is empty. -/
theorem aggregate_spec {R : Type} (S : linq_enumerable σ) (xs : List T) (f : T → T → T)
    (seed : R) (g : R → T → R) (h : S.Yields xs) :
    (S.aggregate f = match xs.head? with
        | some x0 => .ok (xs.tail.foldl f x0)
        | none => .error empty_collection) ∧
      ((∃ err, S.aggregate f = .error err) ↔ xs = []) ∧
      S.aggregate_init seed g = .ok (xs.foldl g seed) := by
  refine ⟨aggregate_of_yields h f, ?_, aggregate_init_of_yields h seed g⟩
  rw [aggregate_of_yields h f]
  cases xs <;> simp

theorem aggregate_spec_witness :
    (from_ [1, 2, 3]).Yields [1, 2, 3] ∧
      (((from_ [1, 2, 3]).aggregate (fun a b => 10 * a + b) = .ok 123) ∧
        ((∃ err, (from_ [1, 2, 3]).aggregate (fun a b => 10 * a + b) = .error err) ↔
          [1, 2, 3] = []) ∧
        (from_ [1, 2, 3]).aggregate_init 9 (fun a b => 10 * a + b) = .ok 9123) :=
  ⟨from_yields _,
    aggregate_spec _ _ (fun a b => 10 * a + b) 9 (fun a b => 10 * a + b) (from_yields _)⟩

end aggregate

/-! ## `max` and `min` -/

section max_min

variable {σ T : Type} [Cursor σ T] [LinearOrder T]

theorem foldl_greater_spec :
    ∀ (xs : List T) (x0 : T),
      xs.foldl (fun a b => if a > b then a else b) x0 ∈ x0 :: xs ∧
        ∀ x ∈ x0 :: xs, x ≤ xs.foldl (fun a b => if a > b then a else b) x0
  | [], x0 => by simp
  | y :: ys, x0 => by
    obtain ⟨ih1, ih2⟩ := foldl_greater_spec ys (if x0 > y then x0 else y)
    simp only [List.foldl_cons]
    refine ⟨?_, ?_⟩
    · rcases List.mem_cons.1 ih1 with hm | hm
      · rw [hm]
        by_cases hgt : x0 > y <;> simp [hgt]
      · exact List.mem_cons_of_mem _ (List.mem_cons_of_mem _ hm)
    · intro x hx
      have hstart := ih2 _ (List.mem_cons_self _ _)
      rcases List.mem_cons.1 hx with rfl | hx
      · refine le_trans ?_ hstart
        by_cases hgt : x > y
        · simp [hgt]
        · rw [if_neg hgt]; exact not_lt.1 hgt
      · rcases List.mem_cons.1 hx with rfl | hx
        · refine le_trans ?_ hstart
          by_cases hgt : x0 > x
          · simpa [hgt] using le_of_lt hgt
          · simp [hgt]
        · exact ih2 x (List.mem_cons_of_mem _ hx)

theorem foldl_less_spec :
    ∀ (xs : List T) (x0 : T),
      xs.foldl (fun a b => if a < b then a else b) x0 ∈ x0 :: xs ∧
        ∀ x ∈ x0 :: xs, xs.foldl (fun a b => if a < b then a else b) x0 ≤ x
  | [], x0 => by simp
  | y :: ys, x0 => by
    obtain ⟨ih1, ih2⟩ := foldl_less_spec ys (if x0 < y then x0 else y)
    simp only [List.foldl_cons]
    refine ⟨?_, ?_⟩
    · rcases List.mem_cons.1 ih1 with hm | hm
      · rw [hm]
        by_cases hlt : x0 < y <;> simp [hlt]
      · exact List.mem_cons_of_mem _ (List.mem_cons_of_mem _ hm)
    · intro x hx
      have hstart := ih2 _ (List.mem_cons_self _ _)
      rcases List.mem_cons.1 hx with rfl | hx
      · refine le_trans hstart ?_
        by_cases hlt : x < y
        · simp [hlt]
        · rw [if_neg hlt]; exact not_lt.1 hlt
      · rcases List.mem_cons.1 hx with rfl | hx
        · refine le_trans hstart ?_
          by_cases hlt : x0 < x
          · simpa [hlt] using le_of_lt hlt
          · simp [hlt]
        · exact ih2 x (List.mem_cons_of_mem _ hx)

/-- C17: for every finite sequence `S` with elements `xs` of a totally ordered type: on the
empty sequence `max()` and `min()` both throw; otherwise `max()` returns a value that occurs
in `xs` and is greater than or equal to every element, and `min()` returns a value that
occurs in `xs` and is less than or equal to every element. -/
theorem max_min_spec (S : linq_enumerable σ) (xs : List T) (h : S.Yields xs) :
    (xs = [] ∧ S.max = .error empty_collection ∧ S.min = .error empty_collection) ∨
      (xs ≠ [] ∧ ∃ M m, S.max = .ok M ∧ M ∈ xs ∧ (∀ x ∈ xs, x ≤ M) ∧
        S.min = .ok m ∧ m ∈ xs ∧ (∀ x ∈ xs, m ≤ x)) := by
  have hmax := aggregate_of_yields h (fun a b => if a > b then a else b)
  have hmin := aggregate_of_yields h (fun a b => if a < b then a else b)
  match xs, h, hmax, hmin with
  | [], _, hmax, hmin => exact Or.inl ⟨rfl, hmax, hmin⟩
  | x0 :: rest, _, hmax, hmin =>
    obtain ⟨g1, g2⟩ := foldl_greater_spec rest x0
    obtain ⟨l1, l2⟩ := foldl_less_spec rest x0
    exact Or.inr ⟨by simp, _, _, hmax, g1, g2, hmin, l1, l2⟩

theorem max_min_spec_witness :
    (from_ [4, 1, 5, 3]).Yields [4, 1, 5, 3] ∧
      ((([4, 1, 5, 3] : List Nat) = [] ∧ (from_ [4, 1, 5, 3]).max = .error empty_collection ∧
          (from_ [4, 1, 5, 3]).min = .error empty_collection) ∨
        (([4, 1, 5, 3] : List Nat) ≠ [] ∧ ∃ M m, (from_ [4, 1, 5, 3]).max = .ok M ∧
          M ∈ [4, 1, 5, 3] ∧ (∀ x ∈ [4, 1, 5, 3], x ≤ M) ∧
          (from_ [4, 1, 5, 3]).min = .ok m ∧ m ∈ [4, 1, 5, 3] ∧
          (∀ x ∈ [4, 1, 5, 3], m ≤ x))) :=
  ⟨from_yields _, max_min_spec _ _ (from_yields _)⟩

end max_min

/-! ## `all` and `any` -/

section all_any

variable {σ T : Type} [Cursor σ T]

theorem foldl_and_eq (bs : List Bool) (b : Bool) :
    bs.foldl (fun a c => a && c) b = (b && bs.all id) := by
  induction bs generalizing b with
  | nil => simp
  | cons c cs ih => simp [ih, Bool.and_assoc]

theorem all_map_id {U : Type} (f : U → Bool) (xs : List U) :
    (xs.map f).all id = xs.all f := by
  induction xs with
  | nil => rfl
  | cons x xs ih => simp [List.all_cons, ih]

theorem all_of_yields {S : linq_enumerable σ} {xs : List T} (h : S.Yields xs)
    (f : T → Bool) : S.all f = .ok (xs.all f) := by
  have := aggregate_init_of_yields (select_yields h f) true (fun a b => a && b)
  rw [linq_enumerable.all, this, foldl_and_eq, all_map_id]
  simp

theorem any_of_yields {S : linq_enumerable σ} {xs : List T} (h : S.Yields xs)
    (f : T → Bool) : S.any f = .ok (xs.any f) := by
  obtain ⟨W, hW, hy⟩ := where_yields h f
  have hemp := empty_of_yields hy
  simp only [linq_enumerable.any, hW, bind, Except.bind, pure, Except.pure]
  congr 1
  cases hq : W.empty with
  | true =>
    have hnil := hemp.1 hq
    have : xs.any f = false := by
      rw [List.any_eq_false]
      intro x hx hfx
      have : x ∈ xs.filter f := List.mem_filter.2 ⟨hx, hfx⟩
      rw [hnil] at this
      cases this
    simp [this]
  | false =>
    have hne : xs.filter f ≠ [] := fun hnil => by
      rw [hemp.2 hnil] at hq; cases hq
    obtain ⟨x, hx⟩ := List.exists_mem_of_ne_nil _ hne
    have hx2 := List.mem_filter.1 hx
    have : xs.any f = true := List.any_eq_true.2 ⟨x, hx2.1, hx2.2⟩
    simp [this]

/-- C18: for every finite sequence `S` with elements `xs` and predicate `f`: `all(f)`
(`select(f)` followed by a seeded and-fold) is `true` exactly when every element satisfies
`f`, and `any(f)` (`where(f)` is not empty) is `true` exactly when some element satisfies
`f`; neither fails. -/
theorem all_any_spec (S : linq_enumerable σ) (xs : List T) (f : T → Bool) (h : S.Yields xs) :
    S.all f = .ok (decide (∀ x ∈ xs, f x = true)) ∧
      S.any f = .ok (decide (∃ x ∈ xs, f x = true)) ∧
      S.all f = (S.select f).aggregate_init true (fun a b => a && b) ∧
      S.any f = (S.where_ f).map (fun w => !w.empty) := by
  refine ⟨?_, ?_, rfl, ?_⟩
  · rw [all_of_yields h f]
    congr 1
    rw [Bool.eq_iff_iff]
    simp [List.all_eq_true]
  · rw [any_of_yields h f]
    congr 1
    rw [Bool.eq_iff_iff]
    simp
  · simp only [linq_enumerable.any, bind, Except.bind, pure, Except.pure, Except.map]

theorem all_any_spec_witness :
    (from_ [4, 1, 5, 3]).Yields [4, 1, 5, 3] ∧
      ((from_ [4, 1, 5, 3]).all (fun x => decide (x < 5))
          = .ok (decide (∀ x ∈ [4, 1, 5, 3], (fun x => decide (x < 5)) x = true)) ∧
        (from_ [4, 1, 5, 3]).any (fun x => decide (x < 5))
          = .ok (decide (∃ x ∈ [4, 1, 5, 3], (fun x => decide (x < 5)) x = true)) ∧
        (from_ [4, 1, 5, 3]).all (fun x => decide (x < 5))
          = ((from_ [4, 1, 5, 3]).select (fun x => decide (x < 5))).aggregate_init true
              (fun a b => a && b) ∧
        (from_ [4, 1, 5, 3]).any (fun x => decide (x < 5))
          = ((from_ [4, 1, 5, 3]).where_ (fun x => decide (x < 5))).map
              (fun w => !w.empty)) :=
  ⟨from_yields _, all_any_spec _ _ (fun x => decide (x < 5)) (from_yields _)⟩

end all_any

/-! ## `average` -/

section average

variable {σ : Type} [Cursor σ Int]

theorem tdiv_range {a b : Int} (hb : 0 < b) (h1 : -2 ^ 31 ≤ a) (h2 : a < 2 ^ 31) :
    -2 ^ 31 ≤ a.tdiv b ∧ a.tdiv b < 2 ^ 31 := by
  by_cases ha : 0 ≤ a
  · rw [Int.tdiv_eq_ediv ha (le_of_lt hb)]
    have := Int.ediv_nonneg ha (le_of_lt hb)
    have := Int.ediv_le_self b ha
    omega
  · have hna : 0 ≤ -a := by omega
    have heq : a.tdiv b = -((-a) / b) := by
      rw [← Int.tdiv_eq_ediv hna (le_of_lt hb), Int.neg_tdiv, neg_neg]
    have := Int.ediv_nonneg hna (le_of_lt hb)
    have := Int.ediv_le_self b hna
    omega

theorem average_loop_spec (e : σ) :
    ∀ (xs : List Int) (c : σ) (n : Nat) (sum counter : Int), Reaches e c xs → xs.length < n →
      (∀ j ≤ xs.length, -2 ^ 31 ≤ sum + (xs.take j).sum ∧ sum + (xs.take j).sum < 2 ^ 31) →
      0 ≤ counter → counter + xs.length < 2 ^ 31 →
      average_loop e n c sum counter = .ok (sum + xs.sum, counter + xs.length)
  | [], c, n, sum, counter, h, hn, _, _, _ => by
    obtain ⟨m, rfl⟩ : ∃ m, n = m + 1 := ⟨n - 1, by simp at hn; omega⟩
    simp [average_loop, (Reaches.nil_iff e c).1 h]
  | x :: xs, c, n, sum, counter, h, hn, hsum, hc0, hc => by
    obtain ⟨m, rfl⟩ : ∃ m, n = m + 1 := ⟨n - 1, by simp at hn; omega⟩
    obtain ⟨h1, h2, _, c', h4, h5⟩ := (Reaches.cons_iff e c x xs).1 h
    simp only [List.length_cons, Nat.cast_add, Nat.cast_one] at hc
    have hs1 := hsum 1 (by simp)
    simp only [List.take_succ_cons, List.take_zero, List.sum_cons, List.sum_nil,
      add_zero] at hs1
    have hw1 : int_wrap (sum + x) = sum + x := int_wrap_of_range hs1.1 hs1.2
    have hw2 : int_wrap (counter + 1) = counter + 1 :=
      int_wrap_of_range (by omega) (by omega)
    have hsum2 : ∀ j ≤ xs.length, -2 ^ 31 ≤ sum + x + (xs.take j).sum ∧
        sum + x + (xs.take j).sum < 2 ^ 31 := by
      intro j hj
      have := hsum (j + 1) (by simpa using hj)
      simp only [List.take_succ_cons, List.sum_cons] at this
      constructor <;> omega
    have ih := average_loop_spec e xs c' m (sum + x) (counter + 1) h5 (by simpa using hn)
      hsum2 (by omega) (by omega)
    simp only [average_loop, h1, h2, h4, hw1, hw2, ih, bind, Except.bind]
    simp only [List.sum_cons, List.length_cons, Nat.cast_add, Nat.cast_one]
    simp
    constructor <;> omega

/-- C19: for every finite sequence `S` of `int` elements `xs` whose running sums fit an
`int`, `average<int>()` throws exactly when `S` is empty and otherwise returns the quotient
(sum of the elements) / count(S) with the fractional part discarded (rounding toward
zero). -/
theorem average_spec (S : linq_enumerable σ) (xs : List Int) (h : S.Yields xs)
    (hlen : (xs.length : Int) < 2 ^ 31)
    (hsum : ∀ j ≤ xs.length, -2 ^ 31 ≤ (xs.take j).sum ∧ (xs.take j).sum < 2 ^ 31) :
    (S.average = match xs.head? with
        | some _ => .ok (Int.tdiv xs.sum xs.length)
        | none => .error empty_collection) ∧
      ((∃ err, S.average = .error err) ↔ xs = []) := by
  have hav : S.average = match xs.head? with
      | some _ => .ok (Int.tdiv xs.sum xs.length)
      | none => .error empty_collection := by
    match xs, h, hlen, hsum with
    | [], h, _, _ =>
      have hq : Cursor.equals S._begin S._end = true := h.1
      simp [linq_enumerable.average, hq]
    | x :: xs, h, hlen, hsum =>
      have h1 := ((Reaches.cons_iff _ _ x xs).1 h.1).1
      have hl := average_loop_spec S._end (x :: xs) S._begin (Cursor.fuel S._begin + 1) 0 0
        h.1 (Nat.lt_succ_of_le h.1.length_le) (by simpa using hsum) (le_refl _)
        (by simpa using hlen)
      have hpos : (0 : Int) < ((x :: xs).length : Int) := by
        simp only [List.length_cons, Nat.cast_add, Nat.cast_one]; omega
      have htot := hsum (x :: xs).length (le_refl _)
      rw [List.take_length] at htot
      have hr := tdiv_range hpos htot.1 htot.2
      have hw := int_wrap_of_range hr.1 hr.2
      have hne : ((x :: xs).length : Int) ≠ 0 := by omega
      simp only [linq_enumerable.average, h1, hl, bind, Except.bind, int_div, zero_add]
      simp only [hne, if_false, hw, List.head?_cons]
      simp
  refine ⟨hav, ?_⟩
  rw [hav]
  cases xs <;> simp

theorem average_spec_witness :
    (from_ ([1, 2, 3] : List Int)).Yields [1, 2, 3] ∧
      ((([1, 2, 3] : List Int).length : Int) < 2 ^ 31) ∧
      (∀ j ≤ ([1, 2, 3] : List Int).length,
        -2 ^ 31 ≤ (([1, 2, 3] : List Int).take j).sum ∧
          (([1, 2, 3] : List Int).take j).sum < 2 ^ 31) ∧
      ((from_ ([1, 2, 3] : List Int)).average = .ok 2 ∧
        ((∃ err, (from_ ([1, 2, 3] : List Int)).average = .error err) ↔
          ([1, 2, 3] : List Int) = [])) :=
  ⟨from_yields _, by decide, by decide,
    average_spec _ _ (from_yields _) (by decide) (by decide)⟩

/-- The scenario of the specification: the `int` average of `{1,2}` is `1`, and a negative
quotient is rounded toward zero. -/
theorem average_scenarios :
    (from_ ([1, 2] : List Int)).average = .ok 1 ∧
      (from_ ([-1, -2] : List Int)).average = .ok (-1) := by
  decide

end average

/-! ## Type erasure -/

section erasure_claim

variable {K : Type} [DecidableEq K] {El : K → Type} {T : Type} [∀ k, Cursor (El k) T]

theorem hide_type_next (k : Option K) (c : boxed_iterator El T k) :
    Cursor.next (hide_type_iterator.create El T k c)
      = (Cursor.next c).map (hide_type_iterator.create El T k) := by
  simp only [Cursor.next, hide_type_iterator.create, iterator_implement.next, bind,
    Except.bind, pure, Except.pure, Except.map]
  cases boxed_cursor El T k |>.next c <;> rfl

theorem hide_type_deref (k : Option K) (c : boxed_iterator El T k) :
    Cursor.deref (hide_type_iterator.create El T k c) = Cursor.deref c :=
  rfl

theorem hide_type_fuel (k : Option K) (c : boxed_iterator El T k) :
    Cursor.fuel (hide_type_iterator.create El T k c) = Cursor.fuel c :=
  rfl

theorem hide_type_to_vector_loop (k : Option K) (e : boxed_iterator El T k) :
    ∀ (n : Nat) (c : boxed_iterator El T k) (acc : List T),
      linq_enumerable.to_vector_loop (hide_type_iterator.create El T k e) n
          (hide_type_iterator.create El T k c) acc
        = linq_enumerable.to_vector_loop e n c acc
  | 0, _, _ => rfl
  | n + 1, c, acc => by
    simp only [linq_enumerable.to_vector_loop, hide_type_equals, hide_type_deref,
      hide_type_next]
    split
    · rfl
    · cases Cursor.deref c with
      | error err => rfl
      | ok x =>
        cases hn : Cursor.next c with
        | error err => simp [bind, Except.bind, Except.map]
        | ok c' =>
          simpa [bind, Except.bind, Except.map] using
            hide_type_to_vector_loop k e n c' (acc ++ [x])

theorem hide_type_count_loop (k : Option K) (e : boxed_iterator El T k) :
    ∀ (n : Nat) (c : boxed_iterator El T k) (counter : Int),
      linq_enumerable.count_loop (hide_type_iterator.create El T k e) n
          (hide_type_iterator.create El T k c) counter
        = linq_enumerable.count_loop e n c counter
  | 0, _, _ => rfl
  | n + 1, c, counter => by
    simp only [linq_enumerable.count_loop, hide_type_equals, hide_type_next]
    split
    · rfl
    · cases hn : Cursor.next c with
      | error err => simp [bind, Except.bind, Except.map]
      | ok c' =>
        simpa [bind, Except.bind, Except.map] using
          hide_type_count_loop k e n c' (int_wrap (counter + 1))

/-- C20: type erasure preserves the sequence: for every enumerable `e` over any cursor
class (index `k` of the table: `storage_iterator` or any other class), the erased enumerable
`linq<T>(e)` gives the same `to_vector()`, the same `count()` (number of steps from begin to
end) and the same `empty()` as `e`. -/
theorem linq_create_preserves (k : Option K) (e : linq_enumerable (boxed_iterator El T k)) :
    (linq.create El T k e).to_vector = e.to_vector ∧
      (linq.create El T k e).count = e.count ∧
      (linq.create El T k e).empty = e.empty :=
  ⟨hide_type_to_vector_loop k e._end _ e._begin [],
    hide_type_count_loop k e._end _ e._begin 0,
    hide_type_equals k e._begin e._end⟩

/-- Erasing a chain of adapters: `where` over a container, boxed and traversed. -/
theorem linq_create_scenario :
    ((from_ [1, 2, 3, 4, 5]).where_ (fun x => x % 2 == 0) >>= fun W =>
        (linq.create (fun (_ : Unit) => where_iterator (vector_iterator Nat) Nat) Nat
          (some ()) W).to_vector)
      = .ok [2, 4] := by
  decide

end erasure_claim

/-! ## Equality of erased cursors -/

theorem hide_type_eq_create {K : Type} {El : K → Type} {T : Type}
    (a : hide_type_iterator El T) :
    a = hide_type_iterator.create El T a.iterator.kind a.iterator.iterator :=
  rfl

section erased_equality

variable {K : Type} [DecidableEq K] {T : Type}

theorem hide_type_equals_of_ne {El : K → Type} [∀ k, Cursor (El k) T] (k k2 : Option K)
    (c : boxed_iterator El T k) (d : boxed_iterator El T k2) (hk : k ≠ k2) :
    Cursor.equals (hide_type_iterator.create El T k c) (hide_type_iterator.create El T k2 d)
      = false := by
  have hk2 : ¬ k2 = k := fun h => hk h.symm
  simp [Cursor.equals, hide_type_iterator.create, iterator_implement.equals,
    iterator_implement.dynamic_pointer_cast, hk2]

/-- C21: for two erased cursors of one element type: when they box cursors `c` and `d` of
different classes, `==` is `false` and `!=` is `true` (in both orders); when they box
cursors `c` and `c2` of the same class, `==` is the `==` of that class on `c` and `c2`, and
`!=` is its negation. -/
theorem erased_equality (El : K → Type) [∀ k, Cursor (El k) T] (k k2 : Option K)
    (c c2 : boxed_iterator El T k) (d : boxed_iterator El T k2) (hk : k ≠ k2) :
    Cursor.equals (hide_type_iterator.create El T k c) (hide_type_iterator.create El T k2 d)
        = false ∧
      (hide_type_iterator.create El T k c).not_equals (hide_type_iterator.create El T k2 d)
        = true ∧
      Cursor.equals (hide_type_iterator.create El T k2 d) (hide_type_iterator.create El T k c)
        = false ∧
      (hide_type_iterator.create El T k2 d).not_equals (hide_type_iterator.create El T k c)
        = true ∧
      Cursor.equals (hide_type_iterator.create El T k c) (hide_type_iterator.create El T k c2)
        = Cursor.equals c c2 ∧
      (hide_type_iterator.create El T k c).not_equals (hide_type_iterator.create El T k c2)
        = !Cursor.equals c c2 := by
  have h1 := hide_type_equals_of_ne k k2 c d hk
  have h2 := hide_type_equals_of_ne k2 k d c (fun h => hk h.symm)
  have h3 := hide_type_equals k c c2
  refine ⟨h1, ?_, h2, ?_, h3, ?_⟩
  · simpa [hide_type_iterator.not_equals, Cursor.equals] using h1
  · simpa [hide_type_iterator.not_equals, Cursor.equals] using h2
  · simp only [hide_type_iterator.not_equals]
    simp only [Cursor.equals] at h3
    rw [h3]

theorem erased_equality_witness :
    (none : Option Unit) ≠ some () ∧
      (Cursor.equals
          (hide_type_iterator.create (vector_kinds Nat) Nat none ⟨[1, 2], vector_begin [1, 2]⟩)
          (hide_type_iterator.create (vector_kinds Nat) Nat (some ()) (vector_begin [1, 2]))
          = false ∧
        (hide_type_iterator.create (vector_kinds Nat) Nat none
            ⟨[1, 2], vector_begin [1, 2]⟩).not_equals
          (hide_type_iterator.create (vector_kinds Nat) Nat (some ()) (vector_begin [1, 2]))
          = true ∧
        Cursor.equals
          (hide_type_iterator.create (vector_kinds Nat) Nat (some ()) (vector_begin [1, 2]))
          (hide_type_iterator.create (vector_kinds Nat) Nat none ⟨[1, 2], vector_begin [1, 2]⟩)
          = false ∧
        (hide_type_iterator.create (vector_kinds Nat) Nat (some ())
            (vector_begin [1, 2])).not_equals
          (hide_type_iterator.create (vector_kinds Nat) Nat none ⟨[1, 2], vector_begin [1, 2]⟩)
          = true ∧
        Cursor.equals
          (hide_type_iterator.create (vector_kinds Nat) Nat none ⟨[1, 2], vector_begin [1, 2]⟩)
          (hide_type_iterator.create (vector_kinds Nat) Nat none ⟨[1, 2], vector_end [1, 2]⟩)
          = Cursor.equals (⟨[1, 2], vector_begin [1, 2]⟩ : storage_iterator Nat)
              ⟨[1, 2], vector_end [1, 2]⟩ ∧
        (hide_type_iterator.create (vector_kinds Nat) Nat none
            ⟨[1, 2], vector_begin [1, 2]⟩).not_equals
          (hide_type_iterator.create (vector_kinds Nat) Nat none ⟨[1, 2], vector_end [1, 2]⟩)
          = !Cursor.equals (⟨[1, 2], vector_begin [1, 2]⟩ : storage_iterator Nat)
              ⟨[1, 2], vector_end [1, 2]⟩) :=
  ⟨by decide,
    erased_equality (vector_kinds Nat) none (some ()) ⟨[1, 2], vector_begin [1, 2]⟩
      ⟨[1, 2], vector_end [1, 2]⟩ (vector_begin [1, 2]) (by decide)⟩

end erased_equality

/-! ## Sentinel convergence -/

section convergence

variable {σ T : Type} [Cursor σ T]

theorem advance_of_reaches (e : σ) :
    ∀ (xs : List T) (c : σ), Reaches e c xs →
      ∃ c2, advance xs.length c = .ok c2 ∧ Cursor.equals c2 e = true
  | [], c, h => ⟨c, rfl, h⟩
  | x :: xs, c, h => by
    obtain ⟨_, _, _, c', h4, h5⟩ := (Reaches.cons_iff e c x xs).1 h
    obtain ⟨c2, hc2, hq⟩ := advance_of_reaches e xs c' h5
    exact ⟨c2, by simp [advance, h4, hc2, bind, Except.bind], hq⟩

/-- An enumerable that is a finite sequence converges to its end cursor, and is empty
exactly when its count is zero. -/
theorem converges_of_yields {W : linq_enumerable σ} {ys : List T} (h : W.Yields ys)
    (hlen : (ys.length : Int) < 2 ^ 31) :
    (∃ c, advance ys.length W._begin = .ok c ∧ Cursor.equals c W._end = true) ∧
      (W.empty = true ↔ W.count = .ok 0) := by
  refine ⟨advance_of_reaches W._end ys W._begin h.1, ?_⟩
  rw [empty_of_yields h, count_of_yields h hlen]
  constructor
  · rintro rfl; rfl
  · intro hc
    have hz : (ys.length : Int) = 0 := by
      injection hc
    exact List.length_eq_zero.1 (by omega)

/-- Sentinel convergence of `where(f)` over every finite sequence. -/
theorem where_converges (S : linq_enumerable σ) (xs : List T) (f : T → Bool)
    (h : S.Yields xs) (hlen : (xs.length : Int) < 2 ^ 31) :
    ∃ W, S.where_ f = .ok W ∧
      (∃ c, advance (xs.filter f).length W._begin = .ok c ∧ Cursor.equals c W._end = true) ∧
      (W.empty = true ↔ W.count = .ok 0) := by
  obtain ⟨W, hW, hy⟩ := where_yields h f
  have hl : (((xs.filter f).length : Nat) : Int) < 2 ^ 31 := by
    have := List.length_filter_le f xs
    omega
  exact ⟨W, hW, converges_of_yields hy hl⟩

/-- Sentinel convergence of `skip_while(f)` over every finite sequence. -/
theorem skip_while_converges (S : linq_enumerable σ) (xs : List T) (f : T → Bool)
    (h : S.Yields xs) (hlen : (xs.length : Int) < 2 ^ 31) :
    ∃ W, S.skip_while f = .ok W ∧
      (∃ c, advance (xs.dropWhile f).length W._begin = .ok c ∧
        Cursor.equals c W._end = true) ∧
      (W.empty = true ↔ W.count = .ok 0) := by
  obtain ⟨W, hW, hy⟩ := skip_while_yields h f
  have hl : (((xs.dropWhile f).length : Nat) : Int) < 2 ^ 31 := by
    have := length_dropWhile_le f xs
    omega
  exact ⟨W, hW, converges_of_yields hy hl⟩

/-- Sentinel convergence of `take_while(f)` over a finite sequence that is empty or has an
element failing `f`. -/
theorem take_while_converges (S : linq_enumerable σ) (xs : List T) (f : T → Bool)
    (h : S.Yields xs) (hlen : (xs.length : Int) < 2 ^ 31)
    (hex : xs = [] ∨ ∃ y ∈ xs, f y = false) :
    ∃ W, S.take_while f = .ok W ∧
      (∃ c, advance (xs.takeWhile f).length W._begin = .ok c ∧
        Cursor.equals c W._end = true) ∧
      (W.empty = true ↔ W.count = .ok 0) := by
  obtain ⟨W, hW, hy⟩ := take_while_yields h f hex
  have hl : (((xs.takeWhile f).length : Nat) : Int) < 2 ^ 31 := by
    have := (List.takeWhile_sublist f (l := xs)).length_le
    omega
  exact ⟨W, hW, converges_of_yields hy hl⟩

end convergence

/-- C22: `take_while(f)` over `{1, 2}` with a predicate that both elements satisfy should
produce two elements and reach its end cursor after two increments; the begin cursor is not
the end cursor, the first increment succeeds, and the second one reads the past-the-end
position of the source instead of arriving at the end cursor, so `count()` faults as well. -/
theorem take_while_does_not_converge :
    ([1, 2].takeWhile (fun _ => true)).length = 2 ∧
      ((from_ [1, 2]).take_while (fun _ => true) >>= fun W => pure W.empty) = .ok false ∧
      ((from_ [1, 2]).take_while (fun _ => true) >>= fun W =>
          (advance 1 W._begin).map (fun c => Cursor.equals c W._end)) = .ok false ∧
      ((from_ [1, 2]).take_while (fun _ => true) >>= fun W =>
          (advance 2 W._begin).map (fun c => Cursor.equals c W._end))
        = .error .dereference_past_end ∧
      ((from_ [1, 2]).take_while (fun _ => true) >>= linq_enumerable.count)
        = .error .dereference_past_end := by
  decide

/-! ## `sum` and `product` -/

section sum_product

variable {σ : Type} [Cursor σ Int]

theorem foldl_wrap_add :
    ∀ (xs : List Int) (s : Int),
      (∀ j ≤ xs.length, -2 ^ 31 ≤ s + (xs.take j).sum ∧ s + (xs.take j).sum < 2 ^ 31) →
      xs.foldl (fun a b => int_wrap (a + b)) s = s + xs.sum
  | [], s, _ => by simp
  | x :: xs, s, h => by
    have h1 := h 1 (by simp)
    simp only [List.take_succ_cons, List.take_zero, List.sum_cons, List.sum_nil,
      add_zero] at h1
    have hw : int_wrap (s + x) = s + x := int_wrap_of_range h1.1 h1.2
    have ih := foldl_wrap_add xs (s + x) (by
      intro j hj
      have := h (j + 1) (by simpa using hj)
      simp only [List.take_succ_cons, List.sum_cons] at this
      constructor <;> omega)
    simp only [List.foldl_cons, hw, ih, List.sum_cons]
    omega

theorem foldl_wrap_mul :
    ∀ (xs : List Int) (p : Int),
      (∀ j ≤ xs.length, -2 ^ 31 ≤ p * (xs.take j).prod ∧ p * (xs.take j).prod < 2 ^ 31) →
      xs.foldl (fun a b => int_wrap (a * b)) p = p * xs.prod
  | [], p, _ => by simp
  | x :: xs, p, h => by
    have h1 := h 1 (by simp)
    simp only [List.take_succ_cons, List.take_zero, List.prod_cons, List.prod_nil,
      mul_one] at h1
    have hw : int_wrap (p * x) = p * x := int_wrap_of_range h1.1 h1.2
    have ih := foldl_wrap_mul xs (p * x) (by
      intro j hj
      have := h (j + 1) (by simpa using hj)
      simp only [List.take_succ_cons, List.prod_cons] at this
      rw [mul_assoc]
      exact this)
    simp only [List.foldl_cons, hw, ih, List.prod_cons, mul_assoc]

/-- C23: for every finite sequence `S` of `int` elements `xs` whose running sums and
products fit an `int`: `sum()` never fails and returns the sum of the elements, which is `0`
on the empty sequence; `product()` throws the empty-collection exception exactly when `S`
is empty (it does not return `1`) and otherwise returns the product of the elements. -/
theorem sum_product_spec (S : linq_enumerable σ) (xs : List Int) (h : S.Yields xs)
    (hsum : ∀ j ≤ xs.length, -2 ^ 31 ≤ (xs.take j).sum ∧ (xs.take j).sum < 2 ^ 31)
    (hprod : ∀ j ≤ xs.length, -2 ^ 31 ≤ (xs.take j).prod ∧ (xs.take j).prod < 2 ^ 31) :
    S.sum = .ok xs.sum ∧
      (S.product = match xs.head? with
        | some _ => .ok xs.prod
        | none => .error empty_collection) ∧
      (S.product = .error empty_collection ↔ xs = []) ∧
      ([] : List Int).sum = 0 := by
  have hs : S.sum = .ok xs.sum := by
    rw [linq_enumerable.sum, aggregate_init_of_yields h, foldl_wrap_add xs 0 (by simpa using hsum)]
    simp
  have hp : S.product = match xs.head? with
      | some _ => .ok xs.prod
      | none => .error empty_collection := by
    rw [linq_enumerable.product, aggregate_of_yields h]
    match xs, hprod with
    | [], _ => rfl
    | x :: rest, hprod =>
      have := foldl_wrap_mul rest x (by
        intro j hj
        have := hprod (j + 1) (by simpa using hj)
        simpa only [List.take_succ_cons, List.prod_cons] using this)
      simp only [List.head?_cons, List.tail_cons, this, List.prod_cons]
  refine ⟨hs, hp, ?_, rfl⟩
  rw [hp]
  cases xs <;> simp

theorem sum_product_spec_witness :
    (from_ ([2, 3, 4] : List Int)).Yields [2, 3, 4] ∧
      (∀ j ≤ ([2, 3, 4] : List Int).length,
        -2 ^ 31 ≤ (([2, 3, 4] : List Int).take j).sum ∧
          (([2, 3, 4] : List Int).take j).sum < 2 ^ 31) ∧
      (∀ j ≤ ([2, 3, 4] : List Int).length,
        -2 ^ 31 ≤ (([2, 3, 4] : List Int).take j).prod ∧
          (([2, 3, 4] : List Int).take j).prod < 2 ^ 31) ∧
      ((from_ ([2, 3, 4] : List Int)).sum = .ok 9 ∧
        (from_ ([2, 3, 4] : List Int)).product = .ok 24 ∧
        ((from_ ([2, 3, 4] : List Int)).product = .error empty_collection ↔
          ([2, 3, 4] : List Int) = []) ∧
        ([] : List Int).sum = 0) :=
  ⟨from_yields _, by decide, by decide,
    sum_product_spec _ _ (from_yields _) (by decide) (by decide)⟩

/-- On the empty sequence `sum()` returns `0` and `product()` throws. -/
theorem sum_product_empty :
    (from_ ([] : List Int)).sum = .ok 0 ∧
      (from_ ([] : List Int)).product = .error empty_collection := by
  decide

end sum_product

/-! ## Negative counts -/

/-- C24: for every finite sequence `S` with fewer than `2 ^ 31` elements `xs` and every
negative count `n`, `S.take(n)` is the whole of `S` (the counter starts at `0` and never
meets `n`), and `S.skip(n)` is constructed without fault and is the whole of `S` as well. -/
theorem take_skip_negative {σ T : Type} [Cursor σ T] (S : linq_enumerable σ) (xs : List T)
    (n : Int) (h : S.Yields xs) (hn : n < 0) (hlen : (xs.length : Int) < 2 ^ 31) :
    (S.take n).Yields xs ∧ (S.take n).to_vector = .ok xs ∧
      ∃ W, S.skip n = .ok W ∧ W.Yields xs ∧ W.to_vector = .ok xs := by
  have ht := take_yields_of_neg h n hn hlen
  obtain ⟨W, hW, hy⟩ := skip_yields h n (by omega)
  have hz : n.toNat = 0 := by omega
  rw [hz, List.drop_zero] at hy
  exact ⟨ht, to_vector_of_yields ht, W, hW, hy, to_vector_of_yields hy⟩

theorem take_skip_negative_witness :
    (from_ [1, 2, 3]).Yields [1, 2, 3] ∧ (-2 : Int) < 0 ∧
      ((([1, 2, 3] : List Nat).length : Int) < 2 ^ 31) ∧
      (((from_ [1, 2, 3]).take (-2)).Yields [1, 2, 3] ∧
        ((from_ [1, 2, 3]).take (-2)).to_vector = .ok [1, 2, 3] ∧
        ∃ W, (from_ [1, 2, 3]).skip (-2) = .ok W ∧ W.Yields [1, 2, 3] ∧
          W.to_vector = .ok [1, 2, 3]) :=
  ⟨from_yields _, by decide, by decide,
    take_skip_negative _ _ (-2) (from_yields _) (by decide) (by decide)⟩

end vczh
